import Mathlib

/-!
Verification of the JSON-extraction / repair-orchestration core of the
portfolio backend (`app.py`).  The Python functions `extract_first_json`,
`collect_all_texts` and the `/api/generate-analysis` handler
`generate_qualitative_analysis` are shallowly embedded as executable Lean
definitions; text is modelled as `List Char`, Python values coming out of
`json` decoding as the inductive type `Json`, and exceptions as `Except`.
-/

namespace Portfolio

/-- Convert a Lean string literal to the `List Char` text model. -/
def lc (s : String) : List Char := s.toList

/-! ### The brace scanner of `extract_first_json` (app.py lines 162-180) -/

/-- Scanner state of `extract_first_json`: the `depth` counter and the
`in_string` / `escape` flags of the Python loop. -/
structure ScanSt where
  depth : Int
  inStr : Bool
  esc : Bool
deriving DecidableEq, Repr

/-- One iteration of the `for` loop body of `extract_first_json` on character
`c`: `none` means the function returned (depth came back to 0 at `c`),
`some st'` is the updated scanner state. -/
def scanStep (st : ScanSt) (c : Char) : Option ScanSt :=
  if st.inStr then
    if st.esc then some { st with esc := false }
    else if c = '\\' then some { st with esc := true }
    else if c = '"' then some { st with inStr := false }
    else some st
  else
    if c = '"' then some { st with inStr := true }
    else if c = '\x7b' then some { st with depth := st.depth + 1 }
    else if c = '\x7d' then
      if st.depth - 1 = 0 then none
      else some { st with depth := st.depth - 1 }
    else some st

/-- Run the scanner loop over `cs`; `some n` means the loop returned after
consuming `n` characters (the span has length `n`), `none` means the loop ran
off the end of the text. -/
def scanCount : List Char → ScanSt → Option Nat
  | [], _ => none
  | c :: cs, st =>
    match scanStep st c with
    | none => some 1
    | some st' => (scanCount cs st').map (· + 1)

/-- The initial state of the scan: depth 0, not in a string, no escape. -/
def startSt : ScanSt := ⟨0, false, false⟩

/-- Shallow embedding of `extract_first_json` (app.py lines 162-180): find the
first `{`, run the scanner from there, and return the span up to the `}` that
brings the depth back to 0, or the empty string if there is none. -/
def extract_first_json (text : List Char) : List Char :=
  let rest := text.dropWhile (fun c => c ≠ '\x7b')
  match scanCount rest startSt with
  | some n => rest.take n
  | none => []

/-- Threading the scanner through a list of characters without the loop
returning: `some st'` is the state after all of `cs`. -/
def scanWalk : ScanSt → List Char → Option ScanSt
  | st, [] => some st
  | st, c :: cs =>
    match scanStep st c with
    | none => none
    | some st' => scanWalk st' cs

theorem scanWalk_append (st : ScanSt) (xs ys : List Char) :
    scanWalk st (xs ++ ys) = (scanWalk st xs).bind (fun st' => scanWalk st' ys) := by
  induction xs generalizing st with
  | nil => simp [scanWalk]
  | cons c cs ih =>
    simp only [List.cons_append, scanWalk]
    cases scanStep st c with
    | none => simp
    | some st' => simpa using ih st'

theorem scanCount_of_walk (st st' : ScanSt) (xs ys : List Char)
    (h : scanWalk st xs = some st') :
    scanCount (xs ++ ys) st = (scanCount ys st').map (· + xs.length) := by
  induction xs generalizing st with
  | nil =>
    simp [scanWalk] at h
    subst h
    simp
  | cons c cs ih =>
    simp only [scanWalk] at h
    cases hs : scanStep st c with
    | none => simp [hs] at h
    | some st₁ =>
      simp only [hs] at h
      have hrec := ih st₁ h
      simp only [List.cons_append, scanCount, hs, List.append_eq]
      rw [hrec]
      cases scanCount ys st' with
      | none => rfl
      | some m =>
        simp only [Option.map_some', List.length_cons, Option.some.injEq]
        omega

/-! ### JSON values and their canonical serialization

`Json` models the Python values handled by `json.dumps` / `json.loads` in the
handler (`None`, `bool`, `int`, `str`, `list`, `dict`); `serVal` models the
canonical `json.dumps` output (separators `", "` and `": "`, control
characters escaped as `\u00XX`, non-ASCII characters left verbatim). -/

inductive Json where
  | null
  | bool (b : Bool)
  | num (n : Int)
  | str (s : List Char)
  | arr (elems : List Json)
  | obj (members : List (List Char × Json))

/-- The sixteen lowercase hexadecimal digit characters. -/
def hexDigits : List Char := lc "0123456789abcdef"

/-- The hexadecimal digit character for `n < 16`. -/
def hexDig (n : Nat) : Char := hexDigits.getD n '0'

/-- JSON string escaping of one character: `\"` and `\\` for quote and
backslash, `\u00XX` for control characters, everything else verbatim. -/
def escChar (c : Char) : List Char :=
  if c = '"' then ['\\', '"']
  else if c = '\\' then ['\\', '\\']
  else if c.toNat < 32 then
    ['\\', 'u', '0', '0', hexDig (c.toNat / 16), hexDig (c.toNat % 16)]
  else [c]

/-- JSON string escaping of a character list (the body between the quotes). -/
def escString : List Char → List Char
  | [] => []
  | c :: s => escChar c ++ escString s

/-- Decimal digits of a positive `Nat`, most significant first, prepended to
`acc`. -/
def serNatAux : Nat → List Char → List Char
  | 0, acc => acc
  | n + 1, acc => serNatAux ((n + 1) / 10) (hexDig ((n + 1) % 10) :: acc)
decreasing_by exact Nat.div_lt_self (Nat.succ_pos n) (by norm_num)

/-- Decimal representation of a `Nat`. -/
def serNat (n : Nat) : List Char := if n = 0 then ['0'] else serNatAux n []

/-- Decimal representation of an `Int`, as `json.dumps` prints Python ints. -/
def serInt (i : Int) : List Char :=
  if i < 0 then '-' :: serNat (-i).toNat else serNat i.toNat

/-- A JSON string literal: quote, escaped body, quote. -/
def serStr (s : List Char) : List Char := '"' :: escString s ++ ['"']

mutual

/-- Canonical serialization of a `Json` value, as `json.dumps` produces it. -/
def serVal : Json → List Char
  | .null => lc "null"
  | .bool true => lc "true"
  | .bool false => lc "false"
  | .num i => serInt i
  | .str s => serStr s
  | .arr es => '[' :: serArr es ++ [']']
  | .obj ms => '\x7b' :: serObj ms ++ ['\x7d']

/-- Array elements joined by `", "`. -/
def serArr : List Json → List Char
  | [] => []
  | [v] => serVal v
  | v :: vs => serVal v ++ ',' :: ' ' :: serArr vs

/-- Object members `"key": value` joined by `", "`. -/
def serObj : List (List Char × Json) → List Char
  | [] => []
  | [(k, v)] => serStr k ++ ':' :: ' ' :: serVal v
  | (k, v) :: ms => serStr k ++ ':' :: ' ' :: serVal v ++ ',' :: ' ' :: serObj ms

end

/-! ### Scanner lemmas: serialized JSON values are scanned transparently -/

/-- A character that the scanner treats as inert outside strings: not a
quote, a backslash or a brace. -/
def plainChar (c : Char) : Prop :=
  c ≠ '"' ∧ c ≠ '\\' ∧ c ≠ '\x7b' ∧ c ≠ '\x7d'

instance (c : Char) : Decidable (plainChar c) := by
  unfold plainChar; infer_instance

theorem scanStep_plain {c : Char} (hc : plainChar c) (d : Int) :
    scanStep ⟨d, false, false⟩ c = some ⟨d, false, false⟩ := by
  simp [scanStep, hc.1, hc.2.1, hc.2.2.1, hc.2.2.2]

theorem scanWalk_plain {cs : List Char} (hcs : ∀ c ∈ cs, plainChar c) (d : Int) :
    scanWalk ⟨d, false, false⟩ cs = some ⟨d, false, false⟩ := by
  induction cs with
  | nil => rfl
  | cons c cs ih =>
    have hc := hcs c (List.mem_cons_self c cs)
    simp only [scanWalk, scanStep_plain hc d]
    exact ih (fun c' hc' => hcs c' (List.mem_cons_of_mem c hc'))

theorem plain_hexDig (k : Nat) : plainChar (hexDig k) := by
  rcases Nat.lt_or_ge k 16 with h | h
  · interval_cases k <;> decide
  · have : hexDig k = '0' := by
      unfold hexDig
      exact List.getD_eq_default _ _ (by rw [show hexDigits.length = 16 from rfl]; omega)
    rw [this]; decide

theorem serNatAux_plain :
    ∀ (n : Nat) (acc : List Char), (∀ c ∈ acc, plainChar c) →
      ∀ c ∈ serNatAux n acc, plainChar c := by
  intro n
  induction n using Nat.strong_induction_on with
  | _ n ih =>
    match n with
    | 0 =>
      intro acc hacc c hc
      rw [serNatAux] at hc
      exact hacc c hc
    | m + 1 =>
      intro acc hacc c hc
      rw [serNatAux] at hc
      refine ih ((m + 1) / 10) (Nat.div_lt_self (Nat.succ_pos m) (by norm_num)) _ ?_ c hc
      intro c' hc'
      rcases List.mem_cons.mp hc' with h | h
      · rw [h]; exact plain_hexDig _
      · exact hacc c' h

theorem serInt_plain (i : Int) : ∀ c ∈ serInt i, plainChar c := by
  intro c hc
  unfold serInt serNat at hc
  split at hc
  · rcases List.mem_cons.mp hc with h | h
    · rw [h]; decide
    · split at h
      · rcases List.mem_singleton.mp h; decide
      · exact serNatAux_plain _ [] (by intro c hc; cases hc) c h
  · split at hc
    · rcases List.mem_singleton.mp hc; decide
    · exact serNatAux_plain _ [] (by intro c hc; cases hc) c hc

theorem scanWalk_escChar (c : Char) (d : Int) :
    scanWalk ⟨d, true, false⟩ (escChar c) = some ⟨d, true, false⟩ := by
  by_cases h1 : c = '"'
  · simp [escChar, h1, scanWalk, scanStep]
  · by_cases h2 : c = '\\'
    · simp [escChar, h1, h2, scanWalk, scanStep]
    · by_cases h3 : c.toNat < 32
      · have hhi := plain_hexDig (c.toNat / 16)
        have hlo := plain_hexDig (c.toNat % 16)
        simp [escChar, h1, h2, h3, scanWalk, scanStep, hhi.1, hhi.2.1, hlo.1, hlo.2.1]
      · simp [escChar, h1, h2, h3, scanWalk, scanStep]

theorem scanWalk_escString (s : List Char) (d : Int) :
    scanWalk ⟨d, true, false⟩ (escString s) = some ⟨d, true, false⟩ := by
  induction s with
  | nil => rfl
  | cons c s ih =>
    rw [escString, scanWalk_append, scanWalk_escChar]
    simpa using ih

theorem scanWalk_serStr (s : List Char) (d : Int) :
    scanWalk ⟨d, false, false⟩ (serStr s) = some ⟨d, false, false⟩ := by
  rw [serStr]
  show scanWalk ⟨d, false, false⟩ ('"' :: (escString s ++ ['"'])) = _
  simp only [scanWalk, scanStep]
  norm_num
  rw [scanWalk_append, scanWalk_escString]
  simp [scanWalk, scanStep]

theorem scanWalk_neutral_append {d : Int} {xs ys : List Char}
    (hx : scanWalk ⟨d, false, false⟩ xs = some ⟨d, false, false⟩)
    (hy : scanWalk ⟨d, false, false⟩ ys = some ⟨d, false, false⟩) :
    scanWalk ⟨d, false, false⟩ (xs ++ ys) = some ⟨d, false, false⟩ := by
  rw [scanWalk_append, hx]
  simpa using hy

theorem scanWalk_plain_cons {c : Char} (hc : plainChar c) (d : Int) (cs : List Char) :
    scanWalk ⟨d, false, false⟩ (c :: cs) = scanWalk ⟨d, false, false⟩ cs := by
  simp only [scanWalk, scanStep_plain hc d]

theorem walk_ser_all : ∀ n : Nat,
    (∀ v : Json, sizeOf v ≤ n → ∀ d : Int, 1 ≤ d →
      scanWalk ⟨d, false, false⟩ (serVal v) = some ⟨d, false, false⟩) ∧
    (∀ es : List Json, sizeOf es ≤ n → ∀ d : Int, 1 ≤ d →
      scanWalk ⟨d, false, false⟩ (serArr es) = some ⟨d, false, false⟩) ∧
    (∀ ms : List (List Char × Json), sizeOf ms ≤ n → ∀ d : Int, 1 ≤ d →
      scanWalk ⟨d, false, false⟩ (serObj ms) = some ⟨d, false, false⟩) := by
  intro n
  induction n with
  | zero =>
    refine ⟨fun v h => ?_, fun es h => ?_, fun ms h => ?_⟩
    · exfalso; cases v <;> simp at h
    · exfalso; cases es <;> simp at h
    · exfalso; cases ms <;> simp at h
  | succ n ih =>
    obtain ⟨ihV, ihA, ihO⟩ := ih
    refine ⟨fun v h d hd => ?_, fun es h d hd => ?_, fun ms h d hd => ?_⟩
    · cases v with
      | null => simp only [serVal]; exact scanWalk_plain (by decide) d
      | bool b =>
        cases b <;> simp only [serVal] <;> exact scanWalk_plain (by decide) d
      | num i => simp only [serVal]; exact scanWalk_plain (serInt_plain i) d
      | str s => simp only [serVal]; exact scanWalk_serStr s d
      | arr es =>
        have hes : sizeOf es ≤ n := by simp at h; omega
        simp only [serVal]
        show scanWalk ⟨d, false, false⟩ ('[' :: (serArr es ++ [']'])) = _
        simp only [scanWalk, scanStep_plain (by decide : plainChar '[') d]
        rw [scanWalk_append, ihA es hes d hd]
        simpa using scanWalk_plain (by decide : ∀ c ∈ [']'], plainChar c) d
      | obj ms =>
        have hms : sizeOf ms ≤ n := by simp at h; omega
        simp only [serVal]
        show scanWalk ⟨d, false, false⟩ ('\x7b' :: (serObj ms ++ ['\x7d'])) = _
        have hopen : scanStep ⟨d, false, false⟩ '\x7b' = some ⟨d + 1, false, false⟩ := by
          simp [scanStep]
        simp only [scanWalk, hopen]
        rw [scanWalk_append, ihO ms hms (d + 1) (by omega)]
        have hclose : scanStep ⟨d + 1, false, false⟩ '\x7d' = some ⟨d, false, false⟩ := by
          simp [scanStep]
          omega
        simp [scanWalk, hclose]
    · cases es with
      | nil => simp only [serArr]; rfl
      | cons v vs =>
        cases vs with
        | nil =>
          have hv : sizeOf v ≤ n := by simp at h; omega
          simp only [serArr]
          exact ihV v hv d hd
        | cons w ws =>
          have hv : sizeOf v ≤ n := by simp at h; omega
          have hws : sizeOf (w :: ws) ≤ n := by simp at h ⊢; omega
          simp only [serArr]
          rw [scanWalk_append, ihV v hv d hd]
          show scanWalk ⟨d, false, false⟩ (',' :: ' ' :: serArr (w :: ws)) = _
          simp only [scanWalk, scanStep_plain (by decide : plainChar ',') d,
            scanStep_plain (by decide : plainChar ' ') d]
          exact ihA (w :: ws) hws d hd
    · cases ms with
      | nil => simp only [serObj]; rfl
      | cons kv ms' =>
        obtain ⟨k, v⟩ := kv
        cases ms' with
        | nil =>
          have hv : sizeOf v ≤ n := by simp at h; omega
          simp only [serObj]
          rw [scanWalk_append, scanWalk_serStr k d]
          show scanWalk ⟨d, false, false⟩ (':' :: ' ' :: serVal v) = _
          simp only [scanWalk, scanStep_plain (by decide : plainChar ':') d,
            scanStep_plain (by decide : plainChar ' ') d]
          exact ihV v hv d hd
        | cons kv2 ms'' =>
          have hv : sizeOf v ≤ n := by simp at h; omega
          have hms : sizeOf (kv2 :: ms'') ≤ n := by simp at h ⊢; omega
          simp only [serObj]
          refine scanWalk_neutral_append (scanWalk_neutral_append (scanWalk_serStr k d) ?_) ?_
          · rw [scanWalk_plain_cons (by decide) d, scanWalk_plain_cons (by decide) d]
            exact ihV v hv d hd
          · rw [scanWalk_plain_cons (by decide) d, scanWalk_plain_cons (by decide) d]
            exact ihO (kv2 :: ms'') hms d hd

/-- The scan of a serialized top-level object consumes exactly the object. -/
theorem scanCount_serObjVal (ms : List (List Char × Json)) (rest : List Char) :
    scanCount (serVal (Json.obj ms) ++ rest) startSt =
      some (serVal (Json.obj ms)).length := by
  have hbody : scanWalk ⟨1, false, false⟩ (serObj ms) = some ⟨1, false, false⟩ :=
    (walk_ser_all (sizeOf ms)).2.2 ms le_rfl 1 le_rfl
  have hser : serVal (Json.obj ms) = '\x7b' :: (serObj ms ++ ['\x7d']) := by
    simp [serVal]
  rw [hser]
  have hopen : scanStep startSt '\x7b' = some ⟨1, false, false⟩ := by
    simp [startSt, scanStep]
  show scanCount ('\x7b' :: ((serObj ms ++ ['\x7d']) ++ rest)) startSt = _
  simp only [scanCount, hopen]
  have hassoc : (serObj ms ++ ['\x7d']) ++ rest = serObj ms ++ ('\x7d' :: rest) := by
    simp
  rw [hassoc, scanCount_of_walk _ _ _ _ hbody]
  have hclose : scanCount ('\x7d' :: rest) ⟨1, false, false⟩ = some 1 := by
    simp [scanCount, scanStep]
  rw [hclose]
  simp
  omega

theorem dropWhile_all_append {α} (p : α → Bool) (xs ys : List α)
    (h : ∀ x ∈ xs, p x) : (xs ++ ys).dropWhile p = ys.dropWhile p := by
  induction xs with
  | nil => rfl
  | cons x xs ih =>
    simp only [List.cons_append, List.dropWhile_cons, h x (List.mem_cons_self x xs)]
    exact ih (fun x' hx' => h x' (List.mem_cons_of_mem x hx'))

/-- Extraction of a serialized object embedded in prose: when the leading
prose contains no `\x7b` character, the whole object (and only it) comes back. -/
theorem extract_embedded_obj (ms : List (List Char × Json)) (pre suf : List Char)
    (hpre : ∀ c ∈ pre, c ≠ '\x7b') :
    extract_first_json (pre ++ serVal (Json.obj ms) ++ suf) = serVal (Json.obj ms) := by
  unfold extract_first_json
  have hdrop :
      (pre ++ serVal (Json.obj ms) ++ suf).dropWhile (fun c => c ≠ '\x7b') =
        serVal (Json.obj ms) ++ suf := by
    rw [List.append_assoc, dropWhile_all_append _ pre _ (by
      intro x hx; simpa using hpre x hx)]
    have hser : serVal (Json.obj ms) = '\x7b' :: (serObj ms ++ ['\x7d']) := by
      simp [serVal]
    rw [hser]
    simp [List.dropWhile_cons]
  rw [hdrop]
  show (match scanCount (serVal (Json.obj ms) ++ suf) startSt with
        | some n => (serVal (Json.obj ms) ++ suf).take n
        | none => []) = serVal (Json.obj ms)
  rw [scanCount_serObjVal ms suf]
  exact List.take_left _ _

/-! ### Shape of an extracted span -/

theorem scanStep_none_char {st : ScanSt} {c : Char} (h : scanStep st c = none) :
    c = '\x7d' ∧ st.inStr = false := by
  unfold scanStep at h
  split_ifs at h
  all_goals simp_all

theorem scanCount_pos_le {cs : List Char} {st : ScanSt} {n : Nat}
    (h : scanCount cs st = some n) : 1 ≤ n ∧ n ≤ cs.length := by
  induction cs generalizing st n with
  | nil => simp [scanCount] at h
  | cons c cs ih =>
    simp only [scanCount] at h
    cases hs : scanStep st c with
    | none =>
      simp only [hs] at h
      have hn : n = 1 := by simpa using h.symm
      simp [hn]
    | some st' =>
      simp only [hs] at h
      cases hm : scanCount cs st' with
      | none => simp [hm] at h
      | some m =>
        simp only [hm, Option.map_some', Option.some.injEq] at h
        have := ih hm
        simp only [List.length_cons]
        omega

theorem scanCount_take {cs : List Char} {st : ScanSt} {n : Nat}
    (h : scanCount cs st = some n) : scanCount (cs.take n) st = some n := by
  induction cs generalizing st n with
  | nil => simp [scanCount] at h
  | cons c cs ih =>
    simp only [scanCount] at h
    cases hs : scanStep st c with
    | none =>
      simp only [hs] at h
      have hn : n = 1 := by simpa using h.symm
      subst hn
      simp [scanCount, hs]
    | some st' =>
      simp only [hs] at h
      cases hm : scanCount cs st' with
      | none => simp [hm] at h
      | some m =>
        simp only [hm, Option.map_some', Option.some.injEq] at h
        subst h
        have htake : (c :: cs).take (m + 1) = c :: cs.take m := by simp
        rw [htake]
        simp only [scanCount, hs, ih hm]
        rfl

theorem scanCount_last_close {cs : List Char} {st : ScanSt} {n : Nat}
    (h : scanCount cs st = some n) : ∃ l, cs.take n = l ++ ['\x7d'] := by
  induction cs generalizing st n with
  | nil => simp [scanCount] at h
  | cons c cs ih =>
    simp only [scanCount] at h
    split at h
    · simp at h
      subst h
      rename_i hnone
      exact ⟨[], by simp [(scanStep_none_char hnone).1]⟩
    · rename_i st' hs
      cases hm : scanCount cs st' with
      | none => simp [hm] at h
      | some m =>
        simp only [hm, Option.map_some', Option.some.injEq] at h
        subst h
        obtain ⟨l, hl⟩ := ih hm
        exact ⟨c :: l, by simp [hl]⟩

theorem dropWhile_head_false {α} {p : α → Bool} {l : List α} {c : α} {t : List α}
    (h : l.dropWhile p = c :: t) : p c = false := by
  induction l with
  | nil => simp [List.dropWhile] at h
  | cons x xs ih =>
    rw [List.dropWhile_cons] at h
    split at h
    · exact ih h
    · cases h; simp_all

end Portfolio

namespace Portfolio.Claims

/-- C1 counterexample: the claim as stated is false.  The surrounding prose is
allowed to contain unmatched braces inside double-quoted strings, but
`text.find('\x7b')` is quote-unaware: for the prefix `"\x7b"` (an unmatched open
brace inside a quoted string) and the well-formed object `\x7b"a": 1\x7d`, the scan
starts at the brace inside the prefix string, swallows the real object inside
what it believes is a string literal, and returns the empty string instead of
the object. -/
theorem C1_counterexample :
    extract_first_json
        (lc "\"\x7b\"" ++ serVal (Json.obj [(lc "a", Json.num 1)]) ++ []) ≠
      serVal (Json.obj [(lc "a", Json.num 1)]) := by
  have h1 : serVal (Json.obj [(lc "a", Json.num 1)]) = lc "\x7b\"a\": 1\x7d" := by
    simp [serVal, serObj, serStr, escString, escChar, serInt, serNat, serNatAux,
      (show hexDig 1 = '1' from rfl), lc]
  rw [h1]
  decide

/-- C1 (amended): for every JSON object value, every prose prefix containing
no `\x7b` character at all, and every suffix, `extract_first_json` on
prefix ++ serialized object ++ suffix returns exactly the serialized object. -/
theorem C1_theorem (ms : List (List Char × Json)) (pre suf : List Char)
    (hpre : ∀ c ∈ pre, c ≠ '\x7b') :
    extract_first_json (pre ++ serVal (Json.obj ms) ++ suf) =
      serVal (Json.obj ms) :=
  extract_embedded_obj ms pre suf hpre

/-- C1 witness: the amended theorem applied at a concrete prose embedding. -/
theorem C1_witness :
    (∀ c ∈ lc "Sure! Here is the data: ", c ≠ '\x7b') ∧
      extract_first_json
          (lc "Sure! Here is the data: " ++
            serVal (Json.obj [(lc "x", Json.num 1)]) ++ lc " Hope that helps.") =
        serVal (Json.obj [(lc "x", Json.num 1)]) :=
  ⟨by decide, C1_theorem [(lc "x", Json.num 1)] _ _ (by decide)⟩

/-- C2: while the scanner is inside a double-quoted string, `\x7b` and `\x7d` do
not change the depth counter and do not terminate the scan; a backslash sets
the escape flag, so an escaped `"` is consumed without ending the string; two
backslashes clear the escape flag again, so `\\` does not escape a following
quote; and the two concrete inputs `\x7b"a": "\x7bnot json\x7d"\x7d` and
`\x7b"a": "x\"y"\x7d` are extracted whole and unchanged. -/
theorem C2_theorem :
    (∀ (st : ScanSt) (c : Char), st.inStr = true → (c = '\x7b' ∨ c = '\x7d') →
      ∃ st', scanStep st c = some st' ∧ st'.depth = st.depth) ∧
    (∀ st : ScanSt, st.inStr = true → st.esc = false →
      scanStep st '\\' = some { st with esc := true }) ∧
    (∀ (st : ScanSt) (c : Char), st.inStr = true → st.esc = true →
      scanStep st c = some { st with esc := false }) ∧
    (∀ d : Int, scanWalk ⟨d, true, false⟩ (lc "\\\\\"") = some ⟨d, false, false⟩) ∧
    extract_first_json (lc "\x7b\"a\": \"\x7bnot json\x7d\"\x7d") =
      lc "\x7b\"a\": \"\x7bnot json\x7d\"\x7d" ∧
    extract_first_json (lc "\x7b\"a\": \"x\\\"y\"\x7d") = lc "\x7b\"a\": \"x\\\"y\"\x7d" := by
  refine ⟨?_, ?_, ?_, ?_, by decide, by decide⟩
  · intro st c hstr _
    by_cases he : st.esc
    · exact ⟨{ st with esc := false }, by simp [scanStep, hstr, he], rfl⟩
    · by_cases hb : c = '\\'
      · exact ⟨{ st with esc := true }, by simp [scanStep, hstr, he, hb], rfl⟩
      · by_cases hq : c = '"'
        · exact ⟨{ st with inStr := false }, by simp [scanStep, hstr, he, hb, hq], rfl⟩
        · exact ⟨st, by simp [scanStep, hstr, he, hb, hq], rfl⟩
  · intro st hstr he
    simp [scanStep, hstr, he]
  · intro st c hstr he
    simp [scanStep, hstr, he]
  · intro d
    simp [lc, scanWalk, scanStep]

/-- C2 witness: the universally quantified parts of `C2_theorem` instantiated
at concrete scanner states. -/
theorem C2_witness :
    (∃ st', scanStep ⟨5, true, false⟩ '\x7b' = some st' ∧ st'.depth = 5) ∧
      scanStep ⟨5, true, false⟩ '\\' = some ⟨5, true, true⟩ ∧
      scanStep ⟨5, true, true⟩ '"' = some ⟨5, true, false⟩ := by
  refine ⟨C2_theorem.1 ⟨5, true, false⟩ '\x7b' rfl (Or.inl rfl), ?_, ?_⟩
  · exact C2_theorem.2.1 ⟨5, true, false⟩ rfl rfl
  · exact C2_theorem.2.2.1 ⟨5, true, true⟩ '"' rfl rfl

end Portfolio.Claims

namespace Portfolio.Claims

/-- C3: if the scan from the first `\x7b` runs off the end of the text without
the depth returning to 0, `extract_first_json` returns the empty string; any
nonempty result is a complete balanced span (scanning the result itself
terminates exactly at its final character), so a truncated fragment is never
returned; in particular `\x7b"a": 1, "b": \x7b` yields the empty string. -/
theorem C3_theorem :
    (∀ text : List Char,
      scanCount (text.dropWhile (fun c => c ≠ '\x7b')) startSt = none →
      extract_first_json text = []) ∧
    (∀ text : List Char, extract_first_json text ≠ [] →
      scanCount (extract_first_json text) startSt =
        some (extract_first_json text).length) ∧
    extract_first_json (lc "\x7b\"a\": 1, \"b\": \x7b") = [] := by
  refine ⟨?_, ?_, by decide⟩
  · intro text h
    simp only [extract_first_json]
    rw [h]
  · intro text hne
    simp only [extract_first_json] at hne ⊢
    cases hm : scanCount (text.dropWhile (fun c => c ≠ '\x7b')) startSt with
    | none => rw [hm] at hne; simp at hne
    | some n =>
      simp only [hm] at hne ⊢
      have ht := scanCount_take hm
      have hle := (scanCount_pos_le hm).2
      rw [List.length_take, min_eq_left hle]
      exact ht

/-- C3 witness: `C3_theorem` applied at concrete inputs: an unterminated
object gives the empty string, and a balanced extraction scans to completion. -/
theorem C3_witness :
    extract_first_json (lc "\x7b oops") = [] ∧
      scanCount (extract_first_json (lc "a\x7b\x7db")) startSt =
        some (extract_first_json (lc "a\x7b\x7db")).length :=
  ⟨C3_theorem.1 (lc "\x7b oops") (by decide),
   C3_theorem.2.1 (lc "a\x7b\x7db") (by decide)⟩

/-- C9: `extract_first_json` is total (embedded as a terminating function);
if the input has no `\x7b` the result is empty, and otherwise the result is
either empty or a contiguous substring of the input starting exactly at the
first `\x7b` (right after the brace-free prefix) and ending with `\x7d`. -/
theorem C9_theorem (text : List Char) :
    ('\x7b' ∉ text → extract_first_json text = []) ∧
    (extract_first_json text = [] ∨
      ∃ suf : List Char,
        text = text.takeWhile (fun c => c ≠ '\x7b') ++ extract_first_json text ++ suf ∧
        (extract_first_json text).head? = some '\x7b' ∧
        (extract_first_json text).getLast? = some '\x7d') := by
  constructor
  · intro hmem
    have hd : text.dropWhile (fun c => c ≠ '\x7b') = [] := by
      refine List.dropWhile_eq_nil_iff.mpr ?_
      intro x hx
      by_cases h : x = '\x7b'
      · exact absurd (h ▸ hx) hmem
      · simp [h]
    simp only [extract_first_json]
    rw [hd]
    rfl
  · cases hm : scanCount (text.dropWhile (fun c => c ≠ '\x7b')) startSt with
    | none =>
      left
      simp only [extract_first_json]
      rw [hm]
    | some n =>
      right
      have hex : extract_first_json text =
          (text.dropWhile (fun c => c ≠ '\x7b')).take n := by
        simp only [extract_first_json]
        rw [hm]
      obtain ⟨h1, h2⟩ := scanCount_pos_le hm
      refine ⟨(text.dropWhile (fun c => c ≠ '\x7b')).drop n, ?_, ?_, ?_⟩
      · conv_lhs => rw [← List.takeWhile_append_dropWhile
          (p := fun c => c ≠ '\x7b') (l := text)]
        rw [hex]
        simp [List.append_assoc, List.take_append_drop]
      · rw [hex]
        cases hrest : text.dropWhile (fun c => c ≠ '\x7b') with
        | nil => rw [hrest] at hm; simp [scanCount] at hm
        | cons c t =>
          have hc : c = '\x7b' := by
            have := dropWhile_head_false hrest
            simpa using this
          cases n with
          | zero => omega
          | succ k => simp [hc]
      · rw [hex]
        obtain ⟨l, hl⟩ := scanCount_last_close hm
        rw [hl]
        simp

/-- C9 witness: `C9_theorem` applied at a brace-free concrete input. -/
theorem C9_witness : extract_first_json (lc "no braces here") = [] :=
  (C9_theorem (lc "no braces here")).1 (by decide)

end Portfolio.Claims

namespace Portfolio

/-! ### A JSON decoder modelling `json.loads`

`pVal` is a recursive-descent decoder for the JSON grammar as `json.loads`
accepts it (arbitrary whitespace between tokens, the standard string escapes,
integer numerals).  It is used to model the two `json.loads` calls of the
handler.  Restrictions of the model: numbers are integers (no floats), and
lenient corner cases of hex digits / leading zeros are not rejected; the
decoder agrees with `json.loads` on every text produced by `serVal` and on
the object spans the handler feeds it. -/

/-- JSON inter-token whitespace, as `json.loads` skips it. -/
def jsonWs (c : Char) : Bool := c = ' ' ∨ c = '\t' ∨ c = '\n' ∨ c = '\r'

/-- Skip inter-token whitespace. -/
def skipWs (cs : List Char) : List Char := cs.dropWhile jsonWs

/-- Numeric value of a hexadecimal digit character. -/
def hexVal (c : Char) : Nat :=
  if c.isDigit then c.toNat - 48
  else if 'a' ≤ c ∧ c ≤ 'f' then c.toNat - 87
  else if 'A' ≤ c ∧ c ≤ 'F' then c.toNat - 55
  else 0

/-- Decoding of a single-character string escape. -/
def escDecode (e : Char) : Option Char :=
  if e = '"' then some '"'
  else if e = '\\' then some '\\'
  else if e = '/' then some '/'
  else if e = 'n' then some '\n'
  else if e = 't' then some '\t'
  else if e = 'r' then some '\r'
  else if e = 'b' then some (Char.ofNat 8)
  else if e = 'f' then some (Char.ofNat 12)
  else none

/-- Decode a JSON string body (after the opening quote), returning the decoded
characters and the remainder after the closing quote. -/
def pStr : List Char → Option (List Char × List Char)
  | [] => none
  | c :: rest =>
    if c = '"' then some ([], rest)
    else if c = '\\' then
      match rest with
      | [] => none
      | e :: rest' =>
        if e = 'u' then
          match rest' with
          | h1 :: h2 :: h3 :: h4 :: rest'' =>
            (pStr rest'').map (fun p =>
              (Char.ofNat ((((hexVal h1) * 16 + hexVal h2) * 16 + hexVal h3) * 16
                + hexVal h4) :: p.1, p.2))
          | _ => none
        else
          match escDecode e with
          | some d => (pStr rest').map (fun p => (d :: p.1, p.2))
          | none => none
    else (pStr rest).map (fun p => (c :: p.1, p.2))

/-- Parse a run of decimal digits into a `Nat` (accumulator form). -/
def pNatAux : List Char → Nat → Nat × List Char
  | [], acc => (acc, [])
  | c :: rest, acc =>
    if c.isDigit then pNatAux rest (acc * 10 + (c.toNat - 48)) else (acc, c :: rest)

/-- Parse a nonempty run of decimal digits. -/
def pNat : List Char → Option (Nat × List Char)
  | [] => none
  | c :: rest => if c.isDigit then some (pNatAux (c :: rest) 0) else none

mutual

/-- Decode one JSON value (fuel-indexed recursive descent). -/
def pVal : Nat → List Char → Option (Json × List Char)
  | 0, _ => none
  | f + 1, cs =>
    match skipWs cs with
    | [] => none
    | c :: cs' =>
      if c = 'n' then
        match cs' with
        | 'u' :: 'l' :: 'l' :: r => some (.null, r)
        | _ => none
      else if c = 't' then
        match cs' with
        | 'r' :: 'u' :: 'e' :: r => some (.bool true, r)
        | _ => none
      else if c = 'f' then
        match cs' with
        | 'a' :: 'l' :: 's' :: 'e' :: r => some (.bool false, r)
        | _ => none
      else if c = '"' then (pStr cs').map (fun p => (.str p.1, p.2))
      else if c = '-' then (pNat cs').map (fun p => (.num (-(p.1 : Int)), p.2))
      else if c.isDigit then (pNat (c :: cs')).map (fun p => (.num (p.1 : Int), p.2))
      else if c = '[' then
        match skipWs cs' with
        | [] => none
        | d :: ds =>
          if d = ']' then some (.arr [], ds)
          else
            match pVal f cs' with
            | some (v, r) =>
              match pArrTail f r with
              | some (vs, r') => some (.arr (v :: vs), r')
              | none => none
            | none => none
      else if c = '\x7b' then
        match skipWs cs' with
        | [] => none
        | d :: ds =>
          if d = '\x7d' then some (.obj [], ds)
          else
            match pMember f cs' with
            | some (kv, r) =>
              match pObjTail f r with
              | some (ms, r') => some (.obj (kv :: ms), r')
              | none => none
            | none => none
      else none

/-- Decode the tail of an array: `]` or `, value tail`. -/
def pArrTail : Nat → List Char → Option (List Json × List Char)
  | 0, _ => none
  | f + 1, cs =>
    match skipWs cs with
    | [] => none
    | d :: ds =>
      if d = ']' then some ([], ds)
      else if d = ',' then
        match pVal f ds with
        | some (v, r') =>
          match pArrTail f r' with
          | some (vs, r'') => some (v :: vs, r'')
          | none => none
        | none => none
      else none

/-- Decode one object member `"key": value`. -/
def pMember : Nat → List Char → Option ((List Char × Json) × List Char)
  | 0, _ => none
  | f + 1, cs =>
    match skipWs cs with
    | [] => none
    | d :: ds =>
      if d = '"' then
        match pStr ds with
        | some (k, r) =>
          match skipWs r with
          | [] => none
          | e :: es =>
            if e = ':' then
              match pVal f es with
              | some (v, r'') => some ((k, v), r'')
              | none => none
            else none
        | none => none
      else none

/-- Decode the tail of an object: `\x7d` or `, member tail`. -/
def pObjTail : Nat → List Char → Option (List (List Char × Json) × List Char)
  | 0, _ => none
  | f + 1, cs =>
    match skipWs cs with
    | [] => none
    | d :: ds =>
      if d = '\x7d' then some ([], ds)
      else if d = ',' then
        match pMember f ds with
        | some (kv, r') =>
          match pObjTail f r' with
          | some (ms, r'') => some (kv :: ms, r'')
          | none => none
        | none => none
      else none

end

/-- Model of `json.loads`: decode one value and require only whitespace after
it; `none` models a raised `json.JSONDecodeError`. -/
def jsonLoads (cs : List Char) : Option Json :=
  match pVal (cs.length + 1) cs with
  | some (v, r) => if skipWs r = [] then some v else none
  | none => none

end Portfolio

namespace Portfolio

/-! ### Decoder / serializer roundtrip -/

theorem skipWs_cons {c : Char} (h : jsonWs c = false) (cs : List Char) :
    skipWs (c :: cs) = c :: cs := by
  simp [skipWs, List.dropWhile_cons, h]

/-- The head of what follows a number in context. -/
def headNotDigit : List Char → Prop
  | [] => True
  | c :: _ => c.isDigit = false

theorem digit_not_ws {c : Char} (h : c.isDigit = true) : jsonWs c = false := by
  cases hjw : jsonWs c
  · rfl
  · exfalso
    have hmem : c = ' ' ∨ c = '\t' ∨ c = '\n' ∨ c = '\r' := of_decide_eq_true hjw
    rcases hmem with h' | h' | h' | h' <;> (subst h'; exact absurd h (by decide))

theorem isDigit_hexDig {k : Nat} (h : k < 10) : (hexDig k).isDigit = true := by
  interval_cases k <;> decide

theorem toNat_hexDig {k : Nat} (h : k < 10) : (hexDig k).toNat - 48 = k := by
  interval_cases k <;> decide

theorem hexVal_hexDig {k : Nat} (h : k < 16) : hexVal (hexDig k) = k := by
  interval_cases k <;> decide

theorem serNatAux_append : ∀ n acc, serNatAux n acc = serNatAux n [] ++ acc := by
  intro n
  induction n using Nat.strong_induction_on with
  | _ n ih =>
    match n with
    | 0 => intro acc; rw [serNatAux, serNatAux]; rfl
    | m + 1 =>
      intro acc
      rw [serNatAux, serNatAux]
      have hlt : (m + 1) / 10 < m + 1 := Nat.div_lt_self (Nat.succ_pos m) (by norm_num)
      rw [ih _ hlt (hexDig ((m + 1) % 10) :: acc), ih _ hlt [hexDig ((m + 1) % 10)]]
      simp

theorem serNatAux_digits : ∀ n, ∀ c ∈ serNatAux n [], c.isDigit = true := by
  intro n
  induction n using Nat.strong_induction_on with
  | _ n ih =>
    match n with
    | 0 => intro c hc; rw [serNatAux] at hc; cases hc
    | m + 1 =>
      intro c hc
      rw [serNatAux, serNatAux_append] at hc
      have hlt : (m + 1) / 10 < m + 1 := Nat.div_lt_self (Nat.succ_pos m) (by norm_num)
      rcases List.mem_append.mp hc with h | h
      · exact ih _ hlt c h
      · rcases List.mem_singleton.mp h with rfl
        exact isDigit_hexDig (Nat.mod_lt _ (by norm_num))

theorem serNat_digits (n : Nat) : ∀ c ∈ serNat n, c.isDigit = true := by
  intro c hc
  unfold serNat at hc
  split at hc
  · rcases List.mem_singleton.mp hc with rfl; decide
  · exact serNatAux_digits _ c hc

theorem serNat_ne_nil (n : Nat) : serNat n ≠ [] := by
  unfold serNat
  split
  · simp
  · rename_i hn
    rw [show n = n - 1 + 1 from by omega, serNatAux, serNatAux_append]
    simp

theorem pNatAux_spec :
    ∀ (ds rest : List Char) (acc : Nat), (∀ c ∈ ds, c.isDigit = true) →
      headNotDigit rest →
      pNatAux (ds ++ rest) acc =
        (List.foldl (fun a c => a * 10 + (c.toNat - 48)) acc ds, rest) := by
  intro ds
  induction ds with
  | nil =>
    intro rest acc _ hrest
    cases rest with
    | nil => rfl
    | cons c t =>
      have : c.isDigit = false := hrest
      simp [pNatAux, this]
  | cons d ds ih =>
    intro rest acc hds hrest
    have hd : d.isDigit = true := hds d (List.mem_cons_self d ds)
    simp only [List.cons_append, pNatAux, hd, if_true, List.foldl_cons]
    exact ih rest _ (fun c hc => hds c (List.mem_cons_of_mem d hc)) hrest

theorem foldl_serNatAux :
    ∀ n a, List.foldl (fun a c => a * 10 + (c.toNat - 48)) a (serNatAux n []) =
      a * 10 ^ (serNatAux n []).length + n := by
  intro n
  induction n using Nat.strong_induction_on with
  | _ n ih =>
    match n with
    | 0 => intro a; rw [serNatAux]; simp
    | m + 1 =>
      intro a
      have hlt : (m + 1) / 10 < m + 1 := Nat.div_lt_self (Nat.succ_pos m) (by norm_num)
      rw [serNatAux, serNatAux_append]
      rw [List.foldl_append, ih _ hlt a]
      simp only [List.foldl_cons, List.foldl_nil, List.length_append,
        List.length_singleton]
      rw [toNat_hexDig (Nat.mod_lt _ (by norm_num : (0:Nat) < 10))]
      rw [pow_succ]
      have hdm := Nat.div_add_mod (m + 1) 10
      ring_nf
      omega

theorem pNat_ser (n : Nat) (rest : List Char) (h : headNotDigit rest) :
    pNat (serNat n ++ rest) = some (n, rest) := by
  cases hsh : serNat n with
  | nil => exact absurd hsh (serNat_ne_nil n)
  | cons c t =>
    have hc : c.isDigit = true := serNat_digits n c (hsh ▸ List.mem_cons_self c t)
    rw [← hsh]
    have hne : serNat n ++ rest = c :: (t ++ rest) := by rw [hsh]; rfl
    rw [hne]
    simp only [pNat, hc, if_true]
    have hval : pNatAux (serNat n ++ rest) 0 = (n, rest) := by
      unfold serNat
      split
      · rename_i h0
        subst h0
        have hsp := pNatAux_spec ['0'] rest 0
          (by intro c hc; rcases List.mem_singleton.mp hc with rfl; decide) h
        simpa using hsp
      · rw [pNatAux_spec _ rest 0 (serNatAux_digits n) h, foldl_serNatAux]
        simp
    rw [← hne, hval]

end Portfolio

namespace Portfolio

theorem pStr_rt : ∀ (s rest : List Char), pStr (escString s ++ '"' :: rest) = some (s, rest) := by
  intro s
  induction s with
  | nil =>
    intro rest
    show pStr ('"' :: rest) = some ([], rest)
    rw [pStr.eq_def]
    simp
  | cons c s ih =>
    intro rest
    show pStr ((escChar c ++ escString s) ++ '"' :: rest) = _
    rw [List.append_assoc]
    by_cases h1 : c = '"'
    · subst h1
      show pStr ('\\' :: '"' :: (escString s ++ '"' :: rest)) = _
      rw [pStr.eq_def]
      simp only [escDecode, reduceIte, ih]
      rfl
    · by_cases h2 : c = '\\'
      · subst h2
        show pStr ('\\' :: '\\' :: (escString s ++ '"' :: rest)) = _
        rw [pStr.eq_def]
        simp only [escDecode, reduceIte, ih]
        rfl
      · by_cases h3 : c.toNat < 32
        · have hesc : escChar c =
              ['\\', 'u', '0', '0', hexDig (c.toNat / 16), hexDig (c.toNat % 16)] := by
            simp [escChar, h1, h2, h3]
          rw [hesc]
          show pStr ('\\' :: 'u' :: '0' :: '0' :: hexDig (c.toNat / 16) ::
            hexDig (c.toNat % 16) :: (escString s ++ '"' :: rest)) = _
          rw [pStr.eq_def]
          simp only [reduceIte, ih]
          have hd : hexVal (hexDig (c.toNat / 16)) = c.toNat / 16 :=
            hexVal_hexDig (by omega)
          have hm : hexVal (hexDig (c.toNat % 16)) = c.toNat % 16 :=
            hexVal_hexDig (Nat.mod_lt _ (by norm_num))
          rw [hd, hm]
          have harith : (((hexVal '0') * 16 + hexVal '0') * 16 + c.toNat / 16) * 16 +
              c.toNat % 16 = c.toNat := by
            have h0 : hexVal '0' = 0 := rfl
            rw [h0]
            omega
          rw [harith, Char.ofNat_toNat]
          rfl
        · have hesc : escChar c = [c] := by simp [escChar, h1, h2, h3]
          rw [hesc]
          show pStr (c :: (escString s ++ '"' :: rest)) = _
          rw [pStr.eq_def]
          simp only [if_neg h1, if_neg h2, ih]
          rfl

theorem digit_ne {c : Char} (h : c.isDigit = true) :
    c ≠ 'n' ∧ c ≠ 't' ∧ c ≠ 'f' ∧ c ≠ '"' ∧ c ≠ '-' := by
  refine ⟨?_, ?_, ?_, ?_, ?_⟩ <;> (rintro rfl; exact absurd h (by decide))

end Portfolio

namespace Portfolio

theorem digit_ne_close {c : Char} (h : c.isDigit = true) :
    c ≠ ']' ∧ c ≠ '\x7d' ∧ c ≠ ',' ∧ c ≠ ':' := by
  refine ⟨?_, ?_, ?_, ?_⟩ <;> (rintro rfl; exact absurd h (by decide))

theorem pVal_serInt (f : Nat) (i : Int) (rest : List Char) (hrest : headNotDigit rest) :
    pVal (f + 1) (serInt i ++ rest) = some (Json.num i, rest) := by
  by_cases hneg : i < 0
  · have hser : serInt i = '-' :: serNat (-i).toNat := by simp [serInt, hneg]
    rw [hser]
    show pVal (f + 1) ('-' :: (serNat (-i).toNat ++ rest)) = _
    have hbr : pVal (f + 1) ('-' :: (serNat (-i).toNat ++ rest)) =
        (pNat (serNat (-i).toNat ++ rest)).map (fun p => (Json.num (-(p.1 : Int)), p.2)) := rfl
    rw [hbr, pNat_ser _ _ hrest]
    have hco : (((-i).toNat : Int)) = -i := Int.toNat_of_nonneg (by omega)
    simp only [Option.map_some', hco, neg_neg]
  · have hser : serInt i = serNat i.toNat := by simp [serInt, hneg]
    rw [hser]
    cases hsh : serNat i.toNat with
    | nil => exact absurd hsh (serNat_ne_nil _)
    | cons c t =>
      have hcd : c.isDigit = true :=
        serNat_digits _ c (by rw [hsh]; exact List.mem_cons_self c t)
      obtain ⟨hn, ht, hf, hq, hmns⟩ := digit_ne hcd
      show pVal (f + 1) (c :: (t ++ rest)) = _
      simp only [pVal]
      rw [skipWs_cons (digit_not_ws hcd)]
      simp only [if_neg hn, if_neg ht, if_neg hf, if_neg hq, if_neg hmns, hcd, if_true]
      rw [show c :: (t ++ rest) = serNat i.toNat ++ rest from by rw [hsh]; rfl]
      rw [pNat_ser _ _ hrest]
      have hco : ((i.toNat : Int)) = i := Int.toNat_of_nonneg (by omega)
      simp only [Option.map_some', hco]

theorem serVal_shape (v : Json) : ∃ c t, serVal v = c :: t ∧ jsonWs c = false ∧
    c ≠ ']' ∧ c ≠ '\x7d' := by
  cases v with
  | null =>
    exact ⟨'n', lc "ull", by simp only [serVal]; rfl, by decide, by decide, by decide⟩
  | bool b =>
    cases b
    · exact ⟨'f', lc "alse", by simp only [serVal]; rfl, by decide, by decide, by decide⟩
    · exact ⟨'t', lc "rue", by simp only [serVal]; rfl, by decide, by decide, by decide⟩
  | num i =>
    by_cases hneg : i < 0
    · exact ⟨'-', serNat (-i).toNat, by simp [serVal, serInt, hneg], by decide, by decide,
        by decide⟩
    · cases hsh : serNat i.toNat with
      | nil => exact absurd hsh (serNat_ne_nil _)
      | cons c t =>
        have hcd : c.isDigit = true :=
          serNat_digits _ c (by rw [hsh]; exact List.mem_cons_self c t)
        obtain ⟨hcl, hcr, _, _⟩ := digit_ne_close hcd
        exact ⟨c, t, by simp [serVal, serInt, hneg, hsh], digit_not_ws hcd, hcl, hcr⟩
  | str s =>
    exact ⟨'"', escString s ++ ['"'], by simp [serVal, serStr], by decide, by decide, by decide⟩
  | arr es =>
    exact ⟨'[', serArr es ++ [']'], by simp [serVal], by decide, by decide, by decide⟩
  | obj ms =>
    exact ⟨'\x7b', serObj ms ++ ['\x7d'], by simp [serVal], by decide, by decide, by decide⟩

/-- The text of the remaining elements of an array (after the first element),
including the closing bracket. -/
def serArrTail : List Json → List Char
  | [] => [']']
  | v :: vs => ',' :: ' ' :: (serVal v ++ serArrTail vs)

/-- The text of the remaining members of an object (after the first member),
including the closing brace. -/
def serObjTail : List (List Char × Json) → List Char
  | [] => ['\x7d']
  | (k, v) :: ms => ',' :: ' ' :: (serStr k ++ ':' :: ' ' :: (serVal v ++ serObjTail ms))

theorem serArr_concat : ∀ (vs : List Json) (v : Json),
    serArr (v :: vs) ++ [']'] = serVal v ++ serArrTail vs := by
  intro vs
  induction vs with
  | nil => intro v; simp [serArr, serArrTail]
  | cons w ws ih =>
    intro v
    have h1 : serArr (v :: w :: ws) = serVal v ++ ',' :: ' ' :: serArr (w :: ws) := by
      simp only [serArr]
    rw [h1, List.append_assoc]
    show serVal v ++ (',' :: ' ' :: (serArr (w :: ws) ++ [']'])) = _
    rw [ih w]
    simp [serArrTail]

theorem serObj_concat : ∀ (ms : List (List Char × Json)) (k : List Char) (v : Json),
    serObj ((k, v) :: ms) ++ ['\x7d'] =
      serStr k ++ ':' :: ' ' :: (serVal v ++ serObjTail ms) := by
  intro ms
  induction ms with
  | nil =>
    intro k v
    simp [serObj, serObjTail]
  | cons kv ms ih =>
    intro k v
    obtain ⟨k2, v2⟩ := kv
    have h1 : serObj ((k, v) :: (k2, v2) :: ms) =
        serStr k ++ ':' :: ' ' :: serVal v ++ ',' :: ' ' :: serObj ((k2, v2) :: ms) := by
      simp only [serObj]
    rw [h1]
    simp only [List.append_assoc, List.cons_append]
    rw [ih k2 v2]
    simp [serObjTail]

theorem headNotDigit_serArrTail (vs : List Json) (rest : List Char) :
    headNotDigit (serArrTail vs ++ rest) := by
  cases vs with
  | nil => exact (by decide : (']').isDigit = false)
  | cons v vs => exact (by decide : (',').isDigit = false)

theorem headNotDigit_serObjTail (ms : List (List Char × Json)) (rest : List Char) :
    headNotDigit (serObjTail ms ++ rest) := by
  cases ms with
  | nil => exact (by decide : ('\x7d').isDigit = false)
  | cons kv ms =>
    obtain ⟨k, v⟩ := kv
    exact (by decide : (',').isDigit = false)

theorem serVal_length_pos (v : Json) : 1 ≤ (serVal v).length := by
  cases v with
  | null => simp only [serVal]; decide
  | bool b => cases b <;> (simp only [serVal]; decide)
  | num i =>
    simp only [serVal]
    unfold serInt
    split
    · simp
    · have := serNat_ne_nil i.toNat
      cases h : serNat i.toNat
      · exact absurd h this
      · simp [h]
  | str s => simp [serVal, serStr]
  | arr es => simp [serVal]
  | obj ms => simp [serVal]

theorem serStr_length (k : List Char) : 2 ≤ (serStr k).length := by
  simp [serStr]

theorem pVal_ws {w : Char} (hw : jsonWs w = true) (f : Nat) (X : List Char) :
    pVal f (w :: X) = pVal f X := by
  cases f with
  | zero => rfl
  | succ f =>
    show pVal (f + 1) (w :: X) = pVal (f + 1) X
    simp only [pVal]
    rw [show skipWs (w :: X) = skipWs X from by simp [skipWs, List.dropWhile_cons, hw]]

end Portfolio

namespace Portfolio

theorem serArrTail_length_pos (vs : List Json) : 1 ≤ (serArrTail vs).length := by
  cases vs <;> simp [serArrTail]

theorem serObjTail_length_pos (ms : List (List Char × Json)) :
    1 ≤ (serObjTail ms).length := by
  cases ms with
  | nil => simp [serObjTail]
  | cons kv ms => obtain ⟨k, v⟩ := kv; simp [serObjTail]

theorem pMember_ws {w : Char} (hw : jsonWs w = true) (f : Nat) (X : List Char) :
    pMember f (w :: X) = pMember f X := by
  cases f with
  | zero => rfl
  | succ f =>
    show pMember (f + 1) (w :: X) = pMember (f + 1) X
    simp only [pMember]
    rw [show skipWs (w :: X) = skipWs X from by simp [skipWs, List.dropWhile_cons, hw]]

theorem rt_all : ∀ f : Nat,
    (∀ (v : Json) (rest : List Char), (serVal v).length ≤ f → headNotDigit rest →
      pVal f (serVal v ++ rest) = some (v, rest)) ∧
    (∀ (vs : List Json) (rest : List Char), (serArrTail vs).length ≤ f →
      pArrTail f (serArrTail vs ++ rest) = some (vs, rest)) ∧
    (∀ (ms : List (List Char × Json)) (rest : List Char), (serObjTail ms).length ≤ f →
      pObjTail f (serObjTail ms ++ rest) = some (ms, rest)) ∧
    (∀ (k : List Char) (v : Json) (rest : List Char),
      (serStr k).length + 2 + (serVal v).length ≤ f → headNotDigit rest →
      pMember f (serStr k ++ ':' :: ' ' :: (serVal v ++ rest)) = some ((k, v), rest)) := by
  intro f
  induction f with
  | zero =>
    refine ⟨fun v rest h _ => absurd h ?_, fun vs rest h => absurd h ?_,
            fun ms rest h => absurd h ?_, fun k v rest h _ => absurd h ?_⟩
    · have := serVal_length_pos v; omega
    · have := serArrTail_length_pos vs; omega
    · have := serObjTail_length_pos ms; omega
    · have := serStr_length k; omega
  | succ f ih =>
    obtain ⟨ihV, ihA, ihO, ihM⟩ := ih
    refine ⟨?_, ?_, ?_, ?_⟩
    · intro v rest hlen hndg
      cases v with
      | null => simp only [serVal]; rfl
      | bool b => cases b <;> (simp only [serVal]; rfl)
      | num i => simp only [serVal]; exact pVal_serInt f i rest hndg
      | str s =>
        have hsplit : serVal (Json.str s) ++ rest =
            '"' :: (escString s ++ ('"' :: rest)) := by
          simp [serVal, serStr]
        rw [hsplit]
        have hbr : pVal (f + 1) ('"' :: (escString s ++ ('"' :: rest))) =
            (pStr (escString s ++ ('"' :: rest))).map (fun p => (Json.str p.1, p.2)) := rfl
        rw [hbr, pStr_rt]
        rfl
      | arr es =>
        cases es with
        | nil =>
          simp only [serVal, serArr]
          rfl
        | cons v vs =>
          have harr : serVal (Json.arr (v :: vs)) = '[' :: (serVal v ++ serArrTail vs) := by
            simp only [serVal]
            rw [show ('[' :: serArr (v :: vs)) ++ [']'] =
                '[' :: (serArr (v :: vs) ++ [']']) from rfl]
            rw [serArr_concat vs v]
          have hsplit : serVal (Json.arr (v :: vs)) ++ rest =
              '[' :: (serVal v ++ (serArrTail vs ++ rest)) := by
            rw [harr]
            simp [List.append_assoc]
          rw [hsplit]
          have hbr : pVal (f + 1) ('[' :: (serVal v ++ (serArrTail vs ++ rest))) =
              (match skipWs (serVal v ++ (serArrTail vs ++ rest)) with
              | [] => none
              | d :: ds =>
                if d = ']' then some (Json.arr [], ds)
                else
                  match pVal f (serVal v ++ (serArrTail vs ++ rest)) with
                  | some (w, r) =>
                    match pArrTail f r with
                    | some (ws, r') => some (Json.arr (w :: ws), r')
                    | none => none
                  | none => none) := rfl
          rw [hbr]
          obtain ⟨c, t, hct, hws, hcl, hcr⟩ := serVal_shape v
          have hcons : serVal v ++ (serArrTail vs ++ rest) =
              c :: (t ++ (serArrTail vs ++ rest)) := by rw [hct]; rfl
          rw [hcons, skipWs_cons hws]
          show (if c = ']' then some (Json.arr [], t ++ (serArrTail vs ++ rest))
                else
                  match pVal f (c :: (t ++ (serArrTail vs ++ rest))) with
                  | some (w, r) =>
                    match pArrTail f r with
                    | some (ws, r') => some (Json.arr (w :: ws), r')
                    | none => none
                  | none => none) = some (Json.arr (v :: vs), rest)
          rw [if_neg hcl, ← hcons]
          have hlen2 := congrArg List.length harr
          simp only [List.length_append, List.length_cons] at hlen2
          have hposA := serArrTail_length_pos vs
          have hlenv : (serVal v).length ≤ f := by omega
          have hlent : (serArrTail vs).length ≤ f := by omega
          rw [ihV v _ hlenv (headNotDigit_serArrTail vs rest)]
          show (match pArrTail f (serArrTail vs ++ rest) with
                | some (ws, r') => some (Json.arr (v :: ws), r')
                | none => none) = some (Json.arr (v :: vs), rest)
          rw [ihA vs rest hlent]
      | obj ms =>
        cases ms with
        | nil =>
          simp only [serVal, serObj]
          rfl
        | cons kv ms =>
          obtain ⟨k, v⟩ := kv
          have hobj : serVal (Json.obj ((k, v) :: ms)) =
              '\x7b' :: (serStr k ++ ':' :: ' ' :: (serVal v ++ serObjTail ms)) := by
            simp only [serVal]
            rw [show ('\x7b' :: serObj ((k, v) :: ms)) ++ ['\x7d'] =
                '\x7b' :: (serObj ((k, v) :: ms) ++ ['\x7d']) from rfl]
            rw [serObj_concat ms k v]
          have hsplit : serVal (Json.obj ((k, v) :: ms)) ++ rest =
              '\x7b' :: (serStr k ++ ':' :: ' ' :: (serVal v ++ (serObjTail ms ++ rest))) := by
            rw [hobj]
            simp [List.append_assoc]
          rw [hsplit]
          have hbr : pVal (f + 1)
              ('\x7b' :: (serStr k ++ ':' :: ' ' :: (serVal v ++ (serObjTail ms ++ rest)))) =
              (match skipWs (serStr k ++ ':' :: ' ' :: (serVal v ++ (serObjTail ms ++ rest))) with
              | [] => none
              | d :: ds =>
                if d = '\x7d' then some (Json.obj [], ds)
                else
                  match pMember f (serStr k ++ ':' :: ' ' :: (serVal v ++ (serObjTail ms ++ rest))) with
                  | some (kw, r) =>
                    match pObjTail f r with
                    | some (ws, r') => some (Json.obj (kw :: ws), r')
                    | none => none
                  | none => none) := rfl
          rw [hbr]
          have hqcons : serStr k ++ ':' :: ' ' :: (serVal v ++ (serObjTail ms ++ rest)) =
              '"' :: (escString k ++ ('"' :: (':' :: ' ' :: (serVal v ++ (serObjTail ms ++ rest))))) := by
            simp [serStr]
          rw [hqcons, skipWs_cons (by decide)]
          show (match pMember f
                  ('"' :: (escString k ++ ('"' :: (':' :: ' ' :: (serVal v ++ (serObjTail ms ++ rest)))))) with
                | some (kw, r) =>
                  match pObjTail f r with
                  | some (ws, r') => some (Json.obj (kw :: ws), r')
                  | none => none
                | none => none) = some (Json.obj ((k, v) :: ms), rest)
          rw [← hqcons]
          have hlen2 := congrArg List.length hobj
          simp only [List.length_append, List.length_cons] at hlen2
          have hposO := serObjTail_length_pos ms
          have hmem : (serStr k).length + 2 + (serVal v).length ≤ f := by omega
          have hlent : (serObjTail ms).length ≤ f := by omega
          rw [ihM k v _ hmem (headNotDigit_serObjTail ms rest)]
          show (match pObjTail f (serObjTail ms ++ rest) with
                | some (ws, r') => some (Json.obj ((k, v) :: ws), r')
                | none => none) = some (Json.obj ((k, v) :: ms), rest)
          rw [ihO ms rest hlent]
    · intro vs rest hlen
      cases vs with
      | nil =>
        simp only [serArrTail]
        show pArrTail (f + 1) (']' :: rest) = some ([], rest)
        rfl
      | cons v vs =>
        simp only [serArrTail, List.length_cons, List.length_append] at hlen
        show pArrTail (f + 1) (',' :: ' ' :: ((serVal v ++ serArrTail vs) ++ rest)) = _
        have hbr : pArrTail (f + 1) (',' :: ' ' :: ((serVal v ++ serArrTail vs) ++ rest)) =
            (match pVal f (' ' :: ((serVal v ++ serArrTail vs) ++ rest)) with
            | some (w, r') =>
              match pArrTail f r' with
              | some (ws, r'') => some (w :: ws, r'')
              | none => none
            | none => none) := rfl
        rw [hbr, pVal_ws (by decide) f, List.append_assoc]
        have hposA := serArrTail_length_pos vs
        have hlenv : (serVal v).length ≤ f := by omega
        have hlent : (serArrTail vs).length ≤ f := by omega
        rw [ihV v _ hlenv (headNotDigit_serArrTail vs rest)]
        show (match pArrTail f (serArrTail vs ++ rest) with
              | some (ws, r'') => some (v :: ws, r'')
              | none => none) = some (v :: vs, rest)
        rw [ihA vs rest hlent]
    · intro ms rest hlen
      cases ms with
      | nil =>
        simp only [serObjTail]
        show pObjTail (f + 1) ('\x7d' :: rest) = some ([], rest)
        rfl
      | cons kv ms =>
        obtain ⟨k, v⟩ := kv
        simp only [serObjTail, List.length_cons, List.length_append] at hlen
        show pObjTail (f + 1)
            (',' :: ' ' :: ((serStr k ++ ':' :: ' ' :: (serVal v ++ serObjTail ms)) ++ rest)) = _
        have hbr : pObjTail (f + 1)
            (',' :: ' ' :: ((serStr k ++ ':' :: ' ' :: (serVal v ++ serObjTail ms)) ++ rest)) =
            (match pMember f (' ' :: ((serStr k ++ ':' :: ' ' :: (serVal v ++ serObjTail ms)) ++ rest)) with
            | some (kw, r') =>
              match pObjTail f r' with
              | some (ws, r'') => some (kw :: ws, r'')
              | none => none
            | none => none) := rfl
        rw [hbr, pMember_ws (by decide) f]
        have hassoc : (serStr k ++ ':' :: ' ' :: (serVal v ++ serObjTail ms)) ++ rest =
            serStr k ++ ':' :: ' ' :: (serVal v ++ (serObjTail ms ++ rest)) := by
          simp [List.append_assoc]
        rw [hassoc]
        have hposO := serObjTail_length_pos ms
        have hmemlen : (serStr k).length + 2 + (serVal v).length ≤ f := by omega
        have hlent : (serObjTail ms).length ≤ f := by omega
        rw [ihM k v _ hmemlen (headNotDigit_serObjTail ms rest)]
        show (match pObjTail f (serObjTail ms ++ rest) with
              | some (ws, r'') => some ((k, v) :: ws, r'')
              | none => none) = some ((k, v) :: ms, rest)
        rw [ihO ms rest hlent]
    · intro k v rest hlen hndg
      have hsplit : serStr k ++ ':' :: ' ' :: (serVal v ++ rest) =
          '"' :: (escString k ++ ('"' :: (':' :: ' ' :: (serVal v ++ rest)))) := by
        simp [serStr]
      rw [hsplit]
      have hbr : pMember (f + 1)
          ('"' :: (escString k ++ ('"' :: (':' :: ' ' :: (serVal v ++ rest))))) =
          (match pStr (escString k ++ ('"' :: (':' :: ' ' :: (serVal v ++ rest)))) with
          | some (kk, r) =>
            match skipWs r with
            | [] => none
            | e :: es =>
              if e = ':' then
                match pVal f es with
                | some (w, r'') => some ((kk, w), r'')
                | none => none
              else none
          | none => none) := rfl
      rw [hbr, pStr_rt]
      show (match skipWs (':' :: ' ' :: (serVal v ++ rest)) with
            | [] => none
            | e :: es =>
              if e = ':' then
                match pVal f es with
                | some (w, r'') => some ((k, w), r'')
                | none => none
              else none) = some ((k, v), rest)
      rw [skipWs_cons (by decide)]
      show (match pVal f (' ' :: (serVal v ++ rest)) with
            | some (w, r'') => some ((k, w), r'')
            | none => none) = some ((k, v), rest)
      rw [pVal_ws (by decide) f]
      have hlv : (serVal v).length ≤ f := by
        have := serStr_length k
        omega
      rw [ihV v rest hlv hndg]

end Portfolio

namespace Portfolio

/-- Decoding a canonically serialized value succeeds and returns the value. -/
theorem jsonLoads_ser (v : Json) : jsonLoads (serVal v) = some v := by
  unfold jsonLoads
  have h := (rt_all ((serVal v).length + 1)).1 v [] (by omega) trivial
  rw [List.append_nil] at h
  rw [h]
  rfl

end Portfolio

namespace Portfolio.Claims

/-- C4 counterexample: the claim as stated quantifies over every
JSON-serializable value, but for `v = 5` the serialization `5` contains no
brace, `extract_first_json` returns the empty string, and decoding the empty
string fails — so parse ∘ extract ∘ serialize is not the identity on all
JSON-serializable values. -/
theorem C4_counterexample :
    jsonLoads (extract_first_json (serVal (Json.num 5))) ≠ some (Json.num 5) := by
  have h1 : serVal (Json.num 5) = ['5'] := by
    simp [serVal, serInt, serNat, serNatAux, (show hexDig 5 = '5' from rfl)]
  have h2 : extract_first_json ['5'] = [] := by decide
  rw [h1, h2]
  intro hcontr
  rw [show jsonLoads [] = none from rfl] at hcontr
  exact Option.noConfusion hcontr

/-- C4 (amended): for every JSON-serializable value whose top level is an
object (a dict), decoding the result of `extract_first_json` applied to its
standard serialization succeeds and yields the value back. -/
theorem C4_theorem (ms : List (List Char × Json)) :
    jsonLoads (extract_first_json (serVal (Json.obj ms))) = some (Json.obj ms) := by
  have hex : extract_first_json (serVal (Json.obj ms)) = serVal (Json.obj ms) := by
    have h := extract_embedded_obj ms [] [] (by intro c hc; cases hc)
    simpa using h
  rw [hex, jsonLoads_ser]

end Portfolio.Claims

namespace Portfolio

/-! ### `collect_all_texts` (app.py lines 183-193) over a Python value model

`Json` doubles as the model of the Python values produced by
`response.json()`.  `Except` models raised exceptions: `.error` is a raised
`AttributeError` / `TypeError`, `.ok` a normal return. -/

/-- Python truthiness of a JSON-shaped value. -/
def pyTruthy : Json → Bool
  | .null => false
  | .bool b => b
  | .num n => n ≠ 0
  | .str s => !s.isEmpty
  | .arr l => !l.isEmpty
  | .obj l => !l.isEmpty

/-- Dictionary lookup with default, as `dict.get(key, default)`. -/
def objGet (kvs : List (List Char × Json)) (key : List Char) (dflt : Json) : Json :=
  match kvs.find? (fun kv => kv.1 = key) with
  | some kv => kv.2
  | none => dflt

/-- `value.get(key, default)`: raises `AttributeError` unless the value is a
dict. -/
def pyGet (v : Json) (key : List Char) (dflt : Json) : Except (List Char) Json :=
  match v with
  | .obj kvs => .ok (objGet kvs key dflt)
  | _ => .error (lc "AttributeError")

/-- Python `x or y`. -/
def pyOr (v dflt : Json) : Json := if pyTruthy v then v else dflt

/-- `for x in v`: the sequence of iterates, or a raised `TypeError` for a
non-iterable value; strings iterate their characters, dicts their keys. -/
def pyIter (v : Json) : Except (List Char) (List Json) :=
  match v with
  | .arr l => .ok l
  | .str s => .ok (s.map (fun c => Json.str [c]))
  | .obj kvs => .ok (kvs.map (fun kv => Json.str kv.1))
  | _ => .error (lc "TypeError")

/-- Python whitespace as `str.strip()` removes it (ASCII subset). -/
def pyWs (c : Char) : Bool :=
  c = ' ' ∨ c = '\t' ∨ c = '\n' ∨ c = '\r' ∨ c = '\x0b' ∨ c = '\x0c'

/-- `s.strip()`. -/
def pyStrip (s : List Char) : List Char :=
  (((s.dropWhile pyWs).reverse).dropWhile pyWs).reverse

/-- The body of the inner `for p in parts` loop: `p.get("text")`, keep the
text when it is a string with nonempty strip. -/
def collectPart (p : Json) : Except (List Char) (Option (List Char)) := do
  let t ← pyGet p (lc "text") .null
  match t with
  | .str s => if pyStrip s ≠ [] then pure (some s) else pure none
  | _ => pure none

/-- The inner loop over `parts`. -/
def collectParts : List Json → Except (List Char) (List (List Char))
  | [] => .ok []
  | p :: ps => do
    let r ← collectPart p
    let rest ← collectParts ps
    match r with
    | some s => .ok (s :: rest)
    | none => .ok rest

/-- One iteration of the outer loop: `cand.get("content", {}).get("parts", [])
or []` and the inner loop. -/
def collectCand (cand : Json) : Except (List Char) (List (List Char)) := do
  let content ← pyGet cand (lc "content") (.obj [])
  let partsRaw ← pyGet content (lc "parts") (.arr [])
  let parts := pyOr partsRaw (.arr [])
  let ps ← pyIter parts
  collectParts ps

/-- The outer loop over `candidates`. -/
def collectCands : List Json → Except (List Char) (List (List Char))
  | [] => .ok []
  | c :: cs => do
    let t1 ← collectCand c
    let t2 ← collectCands cs
    .ok (t1 ++ t2)

/-- `"\n".join(texts)`. -/
def joinNl : List (List Char) → List Char
  | [] => []
  | [s] => s
  | s :: rest => s ++ '\n' :: joinNl rest

/-- Shallow embedding of `collect_all_texts` (app.py lines 183-193). -/
def collect_all_texts (o : Json) : Except (List Char) (List Char) := do
  let cRaw ← pyGet o (lc "candidates") (.arr [])
  let cands := pyOr cRaw (.arr [])
  let cl ← pyIter cands
  let texts ← collectCands cl
  .ok (pyStrip (joinNl texts))

end Portfolio

namespace Portfolio

/-- The shapes of a `parts` value that `collect_all_texts` tolerates: falsy
(missing, `None`, empty) or a list of dicts. -/
def partsShapeOK (parts : Json) : Prop :=
  pyTruthy parts = false ∨ ∃ l, parts = Json.arr l ∧ ∀ p ∈ l, ∃ pk, p = Json.obj pk

/-- The candidate shapes `collect_all_texts` tolerates: a dict whose
`content` is absent or a dict, with tolerable `parts`. -/
def candShapeOK (cand : Json) : Prop :=
  ∃ ck, cand = Json.obj ck ∧
    ∃ cck, objGet ck (lc "content") (Json.obj []) = Json.obj cck ∧
      partsShapeOK (objGet cck (lc "parts") (Json.arr []))

/-- The response shapes `collect_all_texts` tolerates: a dict whose
`candidates` is falsy (absent, `None`, empty) or a list of tolerable
candidates. -/
def respShapeOK (o : Json) : Prop :=
  ∃ kvs, o = Json.obj kvs ∧
    (pyTruthy (objGet kvs (lc "candidates") (Json.arr [])) = false ∨
     ∃ l, objGet kvs (lc "candidates") (Json.arr []) = Json.arr l ∧
       ∀ c ∈ l, candShapeOK c)

theorem collectPart_eq (pk : List (List Char × Json)) :
    collectPart (Json.obj pk) =
      (match objGet pk (lc "text") Json.null with
       | Json.str s => if pyStrip s ≠ [] then Except.ok (some s) else Except.ok none
       | _ => Except.ok none) := rfl

theorem collectPart_obj (pk : List (List Char × Json)) :
    ∃ r, collectPart (Json.obj pk) = .ok r := by
  rw [collectPart_eq]
  cases hg : objGet pk (lc "text") Json.null with
  | str s =>
    by_cases h : pyStrip s = []
    · exact ⟨none, by simp [h]⟩
    · exact ⟨some s, by simp [h]⟩
  | null => exact ⟨none, rfl⟩
  | bool b => exact ⟨none, rfl⟩
  | num n => exact ⟨none, rfl⟩
  | arr l => exact ⟨none, rfl⟩
  | obj m => exact ⟨none, rfl⟩

theorem collectParts_ok (pl : List Json) (h : ∀ p ∈ pl, ∃ pk, p = Json.obj pk) :
    ∃ ts, collectParts pl = .ok ts := by
  induction pl with
  | nil => exact ⟨[], rfl⟩
  | cons p ps ih =>
    obtain ⟨pk, hpk⟩ := h p (List.mem_cons_self p ps)
    obtain ⟨ts, hts⟩ := ih (fun q hq => h q (List.mem_cons_of_mem p hq))
    obtain ⟨r, hr⟩ := collectPart_obj pk
    subst hpk
    refine ⟨match r with | some s => s :: ts | none => ts, ?_⟩
    simp only [collectParts, hr, hts, bind, Except.bind]
    cases r <;> rfl

theorem collectCand_ok (cand : Json) (h : candShapeOK cand) :
    ∃ ts, collectCand cand = .ok ts := by
  obtain ⟨ck, hck, cck, hcck, hparts⟩ := h
  subst hck
  unfold collectCand
  simp only [pyGet, hcck, bind, Except.bind]
  rcases hparts with hfalsy | ⟨pl, hpl, hobjs⟩
  · simp only [pyOr, hfalsy, if_neg]
    simp only [Bool.false_eq_true, if_false, pyIter]
    exact ⟨[], rfl⟩
  · rw [hpl]
    by_cases htr : pyTruthy (Json.arr pl)
    · simp only [pyOr, htr, if_true, pyIter]
      exact collectParts_ok pl hobjs
    · simp only [pyOr, htr, Bool.false_eq_true, if_false, pyIter]
      exact ⟨[], rfl⟩

theorem collectCands_ok (l : List Json) (h : ∀ c ∈ l, candShapeOK c) :
    ∃ ts, collectCands l = .ok ts := by
  induction l with
  | nil => exact ⟨[], rfl⟩
  | cons c cs ih =>
    obtain ⟨t1, ht1⟩ := collectCand_ok c (h c (List.mem_cons_self c cs))
    obtain ⟨t2, ht2⟩ := ih (fun d hd => h d (List.mem_cons_of_mem c hd))
    exact ⟨t1 ++ t2, by simp only [collectCands, ht1, ht2, bind, Except.bind]⟩

end Portfolio

namespace Portfolio.Claims

/-- C7 counterexample: the claim also covers wrong-shaped (not merely
missing) fields at any nesting level, but a truthy non-iterable `candidates`
value such as `5` makes the `for cand in candidates` loop raise `TypeError`
(modelled as `.error`), so `collect_all_texts` does not always return a
string. -/
theorem C7_counterexample :
    ¬∃ s, collect_all_texts (Json.obj [(lc "candidates", Json.num 5)]) = .ok s := by
  rintro ⟨s, hs⟩
  rw [show collect_all_texts (Json.obj [(lc "candidates", Json.num 5)]) =
      .error (lc "TypeError") from rfl] at hs
  exact Except.noConfusion hs

/-- C7 (amended): for every response dict whose `candidates` entry is absent,
falsy or a list of dicts, whose `content` entries are absent or dicts, and
whose `parts` entries are absent, falsy or lists of dicts,
`collect_all_texts` returns a string and never raises; within that shape a
part with a missing `text` key, a non-string `text`, or a whitespace-only
`text` contributes nothing. -/
theorem C7_theorem :
    (∀ o : Json, respShapeOK o → ∃ s, collect_all_texts o = .ok s) ∧
    (∀ pk : List (List Char × Json),
      (∀ s, objGet pk (lc "text") Json.null ≠ Json.str s) →
      collectPart (Json.obj pk) = .ok none) ∧
    (∀ (pk : List (List Char × Json)) (s : List Char),
      objGet pk (lc "text") Json.null = Json.str s → pyStrip s = [] →
      collectPart (Json.obj pk) = .ok none) := by
  refine ⟨?_, ?_, ?_⟩
  · intro o h
    obtain ⟨kvs, hkvs, hcands⟩ := h
    subst hkvs
    unfold collect_all_texts
    simp only [pyGet, bind, Except.bind]
    rcases hcands with hfalsy | ⟨l, hl, hok⟩
    · simp only [pyOr, hfalsy, Bool.false_eq_true, if_false, pyIter]
      exact ⟨pyStrip (joinNl []), rfl⟩
    · rw [hl]
      by_cases htr : pyTruthy (Json.arr l)
      · simp only [pyOr, htr, if_true, pyIter]
        obtain ⟨ts, hts⟩ := collectCands_ok l hok
        rw [hts]
        exact ⟨pyStrip (joinNl ts), rfl⟩
      · simp only [pyOr, htr, Bool.false_eq_true, if_false, pyIter]
        exact ⟨pyStrip (joinNl []), rfl⟩
  · intro pk hns
    rw [collectPart_eq]
    cases hg : objGet pk (lc "text") Json.null with
    | str s => exact absurd hg (hns s)
    | null => rfl
    | bool b => rfl
    | num n => rfl
    | arr l => rfl
    | obj m => rfl
  · intro pk s hg hstrip
    rw [collectPart_eq, hg]
    simp [hstrip]

/-- C7 witness: the amended theorem applied at concrete inputs: an empty
response dict yields a string, and a part whose `text` is a number
contributes nothing. -/
theorem C7_witness :
    (∃ s, collect_all_texts (Json.obj []) = .ok s) ∧
      collectPart (Json.obj [(lc "text", Json.num 3)]) = .ok none :=
  ⟨C7_theorem.1 (Json.obj []) ⟨[], rfl, Or.inl rfl⟩,
   C7_theorem.2.1 [(lc "text", Json.num 3)]
     (fun s h => by rw [show objGet [(lc "text", Json.num 3)] (lc "text") Json.null =
        Json.num 3 from rfl] at h; exact Json.noConfusion h)⟩

/-- C10: a `candidates` key present but bound to `None` is treated as the
empty list (the whole aggregation returns the empty string), and a `parts`
key bound to `None` makes that candidate contribute nothing while processing
continues without error — shown both generically and on a two-candidate
response where the second candidate still contributes its text. -/
theorem C10_theorem :
    (∀ kvs : List (List Char × Json),
      collect_all_texts (Json.obj ((lc "candidates", Json.null) :: kvs)) = .ok []) ∧
    (∀ pkvs : List (List Char × Json),
      collectCand (Json.obj [(lc "content", Json.obj ((lc "parts", Json.null) :: pkvs))]) =
        .ok []) ∧
    collect_all_texts (Json.obj [(lc "candidates", Json.arr
      [Json.obj [(lc "content", Json.obj [(lc "parts", Json.null)])],
       Json.obj [(lc "content", Json.obj [(lc "parts",
         Json.arr [Json.obj [(lc "text", Json.str (lc "hi"))]])])]])]) = .ok (lc "hi") :=
  ⟨fun _ => rfl, fun _ => rfl, rfl⟩

end Portfolio.Claims

namespace Portfolio

/-- The JSON schema skeleton embedded in both prompts (app.py lines 235-272). -/
def schemaStr : String :=
  "\x7b\n" ++
  "  \"vision\": \"기업의 비전과 목표\",\n" ++
  "  \"productsAndServices\": [\"주요 제품 및 서비스 1\", \"주요 제품 및 서비스 2\"],\n" ++
  "  \"performanceSummary\": \"최근 실적 및 재무 상태 요약\",\n" ++
  "  \"swot\": \x7b\n" ++
  "    \"strength\": [\"강점 1\", \"강점 2\"],\n" ++
  "    \"weakness\": [\"약점 1\", \"약점 2\"],\n" ++
  "    \"opportunity\": [\"기회 1\", \"기회 2\"],\n" ++
  "    \"threat\": [\"위협 1\", \"위협 2\"],\n" ++
  "    \"strategy\": \"SWOT 분석 기반의 추천 전략\"\n" ++
  "  \x7d,\n" ++
  "  \"industryAnalysis\": \x7b\n" ++
  "      \"method\": \"산업 분석에 사용한 방법론 (예: 5 Forces Model)\",\n" ++
  "      \"result\": \"산업의 매력도 및 성장 가능성 분석 결과\",\n" ++
  "      \"competitors\": \"주요 경쟁사 목록\",\n" ++
  "      \"competitorAnalysis\": \"경쟁사 대비 강점 및 약점 분석\"\n" ++
  "  \x7d,\n" ++
  "  \"job\": \x7b\n" ++
  "    \"duties\": \"프론트엔드 개발자로서의 주요 직무 내용\",\n" ++
  "    \"description\": \"이 회사에서 프론트엔드 개발자의 역할과 중요성\",\n" ++
  "    \"knowledge\": \"필요한 기술 지식 (예: React, TypeScript)\",\n" ++
  "    \"skills\": \"필요한 소프트 스킬 (예: 협업, 문제 해결 능력)\",\n" ++
  "    \"attitude\": \"요구되는 업무 태도 (예: 성장 지향, 주도성)\",\n" ++
  "    \"certs\": \"우대 자격증 (없으면 \x27해당 없음\x27)\",\n" ++
  "    \"env\": \"개발 환경 및 문화 예측\",\n" ++
  "    \"careerDev\": \"입사 후 커리어 발전 경로 제안\"\n" ++
  "  \x7d,\n" ++
  "  \"selfAnalysis\": \x7b\n" ++
  "      \"knowledge\": \"지원자(나)의 관련 기술 지식 수준 분석\",\n" ++
  "      \"skills\": \"지원자(나)의 관련 소프트 스킬 수준 분석\",\n" ++
  "      \"attitude\": \"지원자(나)의 업무 태도 부합도 분석\",\n" ++
  "      \"actionPlan1\": \"부족한 점 보완을 위한 구체적인 실행 계획 1\",\n" ++
  "      \"actionPlan2\": \"부족한 점 보완을 위한 구체적인 실행 계획 2\",\n" ++
  "      \"actionPlan3\": \"부족한 점 보완을 위한 구체적인 실행 계획 3\"\n" ++
  "  \x7d\n" ++
  "\x7d"

/-- Primary prompt text before the company name. -/
def promptPart1 : String :=
  "당신은 DART 공시 정보를 기반으로 기업을 심층 분석하는 AI 애널리스트입니다.\n" ++
  "분석 대상 기업은 \x27"

/-- Primary prompt text between the business area and the DART data. -/
def promptPart2 : String :=
  ")\x27이며, 지원 직무는 \x27프론트엔드 개발자\x27입니다.\n" ++
  "제공된 DART 데이터와 당신의 지식을 종합하여 아래 JSON 스키마에 맞춰 기업 분석 보고서를 작성해주세요.\n" ++
  "--- DART 데이터 ---\n" ++
  ""

/-- Primary prompt text between the DART data and the schema. -/
def promptPart3 : String :=
  "\n" ++
  "--- JSON 스키마 ---\n" ++
  ""

/-- Primary prompt text after the schema (the rules). -/
def promptPart4 : String :=
  "\n" ++
  "--- 중요 규칙 ---\n" ++
  "1. 모든 텍스트 값은 반드시 \x27한국어\x27로 작성해야 합니다. (VERY IMPORTANT: All text values MUST be in Korean.)\n" ++
  "2. 응답은 다른 설명 없이 순수한 JSON 객체 하나여야 하며, \x27\x7b\x27로 시작해서 \x27\x7d\x27로 끝나야 합니다."

/-- Repair prompt text before the raw text to repair. -/
def repairPart1 : String :=
  "이전 API 응답이 유효한 JSON이 아닙니다. 아래 원본 텍스트를 분석하여 주어진 JSON 스키마에 맞는 \x27순수한 JSON 객체\x27로 복구해주세요.\n" ++
  "--- 복구할 원본 텍스트 ---\n" ++
  ""

/-- Repair prompt text between the raw text and the schema. -/
def repairPart2 : String :=
  "\n" ++
  "--- JSON 스키마 ---\n" ++
  ""

/-- Repair prompt text after the schema, before the JSON-only rule. -/
def repairPart3 : String :=
  "\n" ++
  "--- 절대 규칙 ---\n" ++
  "1. 모든 텍스트 값은 \x27한국어\x27로 번역하거나 작성해야 합니다. (ABSOLUTELY MANDATORY: All values must be in Korean.)\n" ++
  ""

/-- The instruction to output only a brace-delimited JSON object. -/
def jsonOnlyInstr : String :=
  "2. 설명, 주석, 마크다운 등 다른 어떤 텍스트도 없이, 오직 \x27\x7b\x27로 시작해서 \x27\x7d\x27로 끝나는 JSON 객체 하나만 출력해야 합니다."

end Portfolio

namespace Portfolio

/-! ### The `/api/generate-analysis` handler (app.py lines 224-347)

The external generator (`call_gemini` + the network) is abstracted as a
function from the call index to a call result; everything else mirrors the
handler's control flow.  `Ev` records the observable actions: outbound
generator calls (with the exact prompt), aggregation, extraction and decode
attempts. -/

/-- The schema text as character list. -/
def schemaL : List Char := lc schemaStr

/-- The instruction sentence demanding a single brace-delimited JSON object. -/
def jsonInstrL : List Char := lc jsonOnlyInstr

/-- The primary prompt (app.py lines 274-285), parameterized by the stripped
company name, stripped business area, and the dumped DART data string. -/
def primaryPrompt (name biz dart : List Char) : List Char :=
  lc promptPart1 ++ name ++ lc "(" ++ biz ++ lc promptPart2 ++ dart ++
    lc promptPart3 ++ schemaL ++ lc promptPart4

/-- The repair prompt (app.py lines 309-318), embedding the raw aggregated
text of the failed attempt verbatim, the same schema, and the JSON-only
instruction. -/
def repairPrompt (t : List Char) : List Char :=
  lc repairPart1 ++ t ++ lc repairPart2 ++ schemaL ++ lc repairPart3 ++ jsonInstrL

/-- Result of one outbound generator call: a raised network exception
(`requests.RequestException`), or a response with status code, raw text and
the decoded JSON body.  A `none` body models `response.json()` raising; the
model routes it to the unhandled-exception response (which exception handler
catches it depends on the installed `requests` version, and no claim depends
on that branch). -/
inductive CallRes where
  | exn
  | resp (status : Nat) (text : List Char) (body : Option Json)

/-- Observable events of the handler. -/
inductive Ev where
  | genCall (prompt : List Char)
  | aggregate
  | extractAttempt
  | parseAttempt

/-- Outcomes of the handler, by response branch of the source. -/
inductive Ep where
  | badRequest
  | success (v : Json)
  | upstreamPrimary (status : Nat) (upstream : List Char)
  | upstreamRepair (status : Nat) (upstream : List Char)
  | netError
  | internalError
  | finalFailure

/-- The parse block of one attempt (app.py lines 299-305 and 329-335):
`if text_content: json_part = extract_first_json(...); if json_part:
json.loads(json_part)`, with a decode error caught. -/
def tryParse (t : List Char) : Option Json :=
  if t = [] then none
  else
    let jp := extract_first_json t
    if jp = [] then none else jsonLoads jp

/-- The extraction/decode events of one attempt's parse block. -/
def parseEvents (t : List Char) : List Ev :=
  if t = [] then []
  else if extract_first_json t = [] then [Ev.extractAttempt]
  else [Ev.extractAttempt, Ev.parseAttempt]

/-- The repair half of the handler (app.py lines 307-340), entered after the
primary attempt failed with aggregated text `t1`; `evs` are the events of the
primary attempt. -/
def repairPhase (gen : Nat → CallRes) (t1 : List Char) (evs : List Ev) :
    Ep × List Ev :=
  let p2 := repairPrompt t1
  match gen 1 with
  | .exn => (Ep.netError, evs ++ [Ev.genCall p2])
  | .resp st2 txt2 body2 =>
    if 400 ≤ st2 then (Ep.upstreamRepair st2 txt2, evs ++ [Ev.genCall p2])
    else
      match body2 with
      | none => (Ep.internalError, evs ++ [Ev.genCall p2])
      | some obj2 =>
        match collect_all_texts obj2 with
        | .error _ => (Ep.internalError, evs ++ [Ev.genCall p2, Ev.aggregate])
        | .ok t2 =>
          match tryParse t2 with
          | some v =>
            (Ep.success v, evs ++ Ev.genCall p2 :: Ev.aggregate :: parseEvents t2)
          | none =>
            (Ep.finalFailure, evs ++ Ev.genCall p2 :: Ev.aggregate :: parseEvents t2)

/-- Shallow embedding of `generate_qualitative_analysis`
(app.py lines 224-347). -/
def runGenerate (gen : Nat → CallRes) (companyName bizArea dartDataStr : List Char) :
    Ep × List Ev :=
  let name := pyStrip companyName
  if name = [] then (Ep.badRequest, [])
  else
    let p1 := primaryPrompt name (pyStrip bizArea) dartDataStr
    match gen 0 with
    | .exn => (Ep.netError, [Ev.genCall p1])
    | .resp st txt body =>
      if 400 ≤ st then (Ep.upstreamPrimary st txt, [Ev.genCall p1])
      else
        match body with
        | none => (Ep.internalError, [Ev.genCall p1])
        | some o =>
          match collect_all_texts o with
          | .error _ => (Ep.internalError, [Ev.genCall p1, Ev.aggregate])
          | .ok t1 =>
            match tryParse t1 with
            | some v => (Ep.success v, Ev.genCall p1 :: Ev.aggregate :: parseEvents t1)
            | none =>
              repairPhase gen t1 (Ev.genCall p1 :: Ev.aggregate :: parseEvents t1)

/-- Is an event an outbound generator call? -/
def isGenCall : Ev → Bool
  | .genCall _ => true
  | _ => false

/-- Number of outbound generator calls recorded in an event list. -/
def countCalls (evs : List Ev) : Nat := (evs.filter isGenCall).length

theorem countCalls_append (a b : List Ev) :
    countCalls (a ++ b) = countCalls a + countCalls b := by
  simp [countCalls, List.filter_append]

theorem filter_isGenCall_parseEvents (t : List Char) :
    (parseEvents t).filter isGenCall = [] := by
  unfold parseEvents
  split_ifs <;> rfl

theorem countCalls_parseEvents (t : List Char) : countCalls (parseEvents t) = 0 := by
  simp [countCalls, filter_isGenCall_parseEvents]

theorem countCalls_primaryEvents (p : List Char) (t : List Char) :
    countCalls (Ev.genCall p :: Ev.aggregate :: parseEvents t) = 1 := by
  simp [countCalls, List.filter_cons, isGenCall, filter_isGenCall_parseEvents]

theorem repairPhase_calls (gen : Nat → CallRes) (t1 : List Char) (evs : List Ev) :
    countCalls (repairPhase gen t1 evs).2 = countCalls evs + 1 := by
  unfold repairPhase
  cases gen 1 with
  | exn => simp [countCalls_append, countCalls, isGenCall]
  | resp st2 txt2 body2 =>
    dsimp only
    split_ifs
    · simp [countCalls_append, countCalls, isGenCall]
    · cases body2 with
      | none => simp [countCalls_append, countCalls, isGenCall]
      | some obj2 =>
        dsimp only
        cases hc : collect_all_texts obj2 with
        | error e =>
          simp [countCalls_append, countCalls, List.filter_cons, isGenCall]
        | ok t2 =>
          cases hp : tryParse t2 <;>
            simp [hp, countCalls_append, countCalls, List.filter_cons, isGenCall,
              filter_isGenCall_parseEvents]

theorem repairPhase_has_call (gen : Nat → CallRes) (t1 : List Char) (evs : List Ev) :
    Ev.genCall (repairPrompt t1) ∈ (repairPhase gen t1 evs).2 := by
  unfold repairPhase
  cases gen 1 with
  | exn => exact List.mem_append_right _ (List.mem_singleton.mpr rfl)
  | resp st2 txt2 body2 =>
    dsimp only
    split_ifs
    · exact List.mem_append_right _ (List.mem_singleton.mpr rfl)
    · cases body2 with
      | none => exact List.mem_append_right _ (List.mem_singleton.mpr rfl)
      | some obj2 =>
        dsimp only
        cases hc : collect_all_texts obj2 with
        | error e => exact List.mem_append_right _ (List.mem_cons_self _ _)
        | ok t2 =>
          cases hp : tryParse t2 <;>
            (simp only [hp]; exact List.mem_append_right _ (List.mem_cons_self _ _))

end Portfolio

namespace Portfolio

/-- After a failed primary attempt (2xx response, aggregation ok, extraction
or decode failed) the handler proceeds to the repair phase with the primary
attempt's raw aggregated text. -/
theorem runGenerate_primary_fail
    (gen : Nat → CallRes) (cn ba dd : List Char) {st1 : Nat} {txt1 t1 : List Char}
    {o1 : Json}
    (hname : pyStrip cn ≠ [])
    (hgen : gen 0 = CallRes.resp st1 txt1 (some o1))
    (hst : st1 < 400)
    (hcol : collect_all_texts o1 = Except.ok t1)
    (hfail : tryParse t1 = none) :
    runGenerate gen cn ba dd =
      repairPhase gen t1
        (Ev.genCall (primaryPrompt (pyStrip cn) (pyStrip ba) dd) :: Ev.aggregate ::
          parseEvents t1) := by
  simp only [runGenerate, if_neg hname, hgen, if_neg (show ¬400 ≤ st1 by omega),
    hcol, hfail]

end Portfolio

namespace Portfolio.Claims

/-- C5: every execution of the handler issues at most two generator calls;
and when the primary and repair responses both come back 2xx with aggregable
bodies whose texts fail to yield parsable JSON, the outcome is the terminal
failure response and exactly two calls were made — no third call exists. -/
theorem C5_theorem :
    (∀ (gen : Nat → CallRes) (cn ba dd : List Char),
      countCalls (runGenerate gen cn ba dd).2 ≤ 2) ∧
    (∀ (gen : Nat → CallRes) (cn ba dd : List Char) (st1 st2 : Nat)
       (txt1 txt2 t1 t2 : List Char) (o1 o2 : Json),
      pyStrip cn ≠ [] →
      gen 0 = CallRes.resp st1 txt1 (some o1) → st1 < 400 →
      collect_all_texts o1 = Except.ok t1 → tryParse t1 = none →
      gen 1 = CallRes.resp st2 txt2 (some o2) → st2 < 400 →
      collect_all_texts o2 = Except.ok t2 → tryParse t2 = none →
      (runGenerate gen cn ba dd).1 = Ep.finalFailure ∧
        countCalls (runGenerate gen cn ba dd).2 = 2) := by
  constructor
  · intro gen cn ba dd
    by_cases hname : pyStrip cn = []
    · simp [runGenerate, hname, countCalls]
    · simp only [runGenerate, if_neg hname]
      cases hg : gen 0 with
      | exn => simp [countCalls, isGenCall]
      | resp st txt body =>
        dsimp only
        split_ifs
        · simp [countCalls, isGenCall]
        · cases body with
          | none => simp [countCalls, isGenCall]
          | some o =>
            dsimp only
            cases hc : collect_all_texts o with
            | error e => simp [countCalls, List.filter_cons, isGenCall]
            | ok t1 =>
              cases hp : tryParse t1 with
              | some v =>
                simp [hp, countCalls, List.filter_cons, isGenCall,
                  filter_isGenCall_parseEvents]
              | none =>
                simp only [hp]
                rw [repairPhase_calls, countCalls_primaryEvents]
  · intro gen cn ba dd st1 st2 txt1 txt2 t1 t2 o1 o2 hname hgen1 hst1 hcol1 hfail1
      hgen2 hst2 hcol2 hfail2
    have hrun := runGenerate_primary_fail gen cn ba dd hname hgen1 hst1 hcol1 hfail1
    rw [hrun]
    constructor
    · simp only [repairPhase, hgen2, if_neg (show ¬400 ≤ st2 by omega), hcol2, hfail2]
    · rw [repairPhase_calls, countCalls_primaryEvents]

/-- C5 witness: a generator whose two responses are 2xx with empty aggregated
text: the run ends in terminal failure after exactly two calls. -/
theorem C5_witness :
    (runGenerate (fun _ => CallRes.resp 200 [] (some (Json.obj [])))
        (lc "acme") [] []).1 = Ep.finalFailure ∧
      countCalls (runGenerate (fun _ => CallRes.resp 200 [] (some (Json.obj [])))
        (lc "acme") [] []).2 = 2 :=
  C5_theorem.2 (fun _ => CallRes.resp 200 [] (some (Json.obj []))) (lc "acme") [] []
    200 200 [] [] [] [] (Json.obj []) (Json.obj [])
    (by decide) rfl (by omega) rfl rfl rfl (by omega) rfl rfl

/-- C6 counterexample: the claim covers every non-2xx status, but the code's
guard is `status_code >= 400`: a 302 response is not surfaced as an upstream
transport error — the handler goes on to aggregate, extract and decode the
302 response's body and even returns success, with an extraction attempt on
record. -/
theorem C6_counterexample :
    (runGenerate (fun _ => CallRes.resp 302 []
        (some (Json.obj [(lc "candidates", Json.arr [Json.obj
          [(lc "content", Json.obj [(lc "parts", Json.arr [Json.obj
            [(lc "text", Json.str (lc "\x7b\"x\": 1\x7d"))]])])]])])))
        (lc "acme") [] []).1 = Ep.success (Json.obj [(lc "x", Json.num 1)]) ∧
      Ev.extractAttempt ∈ (runGenerate (fun _ => CallRes.resp 302 []
        (some (Json.obj [(lc "candidates", Json.arr [Json.obj
          [(lc "content", Json.obj [(lc "parts", Json.arr [Json.obj
            [(lc "text", Json.str (lc "\x7b\"x\": 1\x7d"))]])])]])])))
        (lc "acme") [] []).2 := by
  constructor
  · rfl
  · have h2 : (runGenerate (fun _ => CallRes.resp 302 []
        (some (Json.obj [(lc "candidates", Json.arr [Json.obj
          [(lc "content", Json.obj [(lc "parts", Json.arr [Json.obj
            [(lc "text", Json.str (lc "\x7b\"x\": 1\x7d"))]])])]])])))
        (lc "acme") [] []).2 =
        Ev.genCall (primaryPrompt (pyStrip (lc "acme")) (pyStrip []) []) ::
          Ev.aggregate :: [Ev.extractAttempt, Ev.parseAttempt] := rfl
    rw [h2]
    exact List.mem_cons_of_mem _ (List.mem_cons_of_mem _ (List.mem_cons_self _ _))

/-- C6 (amended): for every primary generator response whose status is at
least 400, the handler returns the upstream transport error immediately with
the upstream status and body, its event trace being a single generator call —
zero aggregation, extraction or decode attempts and zero repair calls; and a
network exception on the primary call likewise ends the run after that one
call. -/
theorem C6_theorem :
    (∀ (gen : Nat → CallRes) (cn ba dd : List Char) (st : Nat) (txt : List Char)
       (body : Option Json),
      pyStrip cn ≠ [] → gen 0 = CallRes.resp st txt body → 400 ≤ st →
      runGenerate gen cn ba dd =
        (Ep.upstreamPrimary st txt,
         [Ev.genCall (primaryPrompt (pyStrip cn) (pyStrip ba) dd)])) ∧
    (∀ (gen : Nat → CallRes) (cn ba dd : List Char),
      pyStrip cn ≠ [] → gen 0 = CallRes.exn →
      runGenerate gen cn ba dd =
        (Ep.netError, [Ev.genCall (primaryPrompt (pyStrip cn) (pyStrip ba) dd)])) := by
  constructor
  · intro gen cn ba dd st txt body hname hgen hst
    simp only [runGenerate, if_neg hname, hgen, if_pos hst]
  · intro gen cn ba dd hname hgen
    simp only [runGenerate, if_neg hname, hgen]

/-- C6 witness: the amended theorem applied to a concrete 503 response and to
a concrete network failure. -/
theorem C6_witness :
    runGenerate (fun _ => CallRes.resp 503 (lc "oops") none) (lc "acme") [] [] =
        (Ep.upstreamPrimary 503 (lc "oops"),
         [Ev.genCall (primaryPrompt (pyStrip (lc "acme")) (pyStrip []) [])]) ∧
      runGenerate (fun _ => CallRes.exn) (lc "acme") [] [] =
        (Ep.netError,
         [Ev.genCall (primaryPrompt (pyStrip (lc "acme")) (pyStrip []) [])]) :=
  ⟨C6_theorem.1 (fun _ => CallRes.resp 503 (lc "oops") none) (lc "acme") [] []
      503 (lc "oops") none (by decide) rfl (by omega),
   C6_theorem.2 (fun _ => CallRes.exn) (lc "acme") [] [] (by decide) rfl⟩

/-- C8: whenever the primary attempt fails (extraction or decode failure on a
2xx response), the second generator call is made with the repair prompt, which
embeds the primary attempt's full raw aggregated text verbatim, the same
schema text that the primary prompt embeds, and the instruction to output
only a brace-delimited JSON object. -/
theorem C8_theorem (gen : Nat → CallRes) (cn ba dd : List Char) (st1 : Nat)
    (txt1 t1 : List Char) (o1 : Json)
    (hname : pyStrip cn ≠ []) (hgen : gen 0 = CallRes.resp st1 txt1 (some o1))
    (hst : st1 < 400) (hcol : collect_all_texts o1 = Except.ok t1)
    (hfail : tryParse t1 = none) :
    Ev.genCall (repairPrompt t1) ∈ (runGenerate gen cn ba dd).2 ∧
    (∃ a b, repairPrompt t1 = a ++ t1 ++ b) ∧
    (∃ a b, repairPrompt t1 = a ++ schemaL ++ b) ∧
    (∃ a b, primaryPrompt (pyStrip cn) (pyStrip ba) dd = a ++ schemaL ++ b) ∧
    (∃ a b, repairPrompt t1 = a ++ jsonInstrL ++ b) := by
  refine ⟨?_, ?_, ?_, ?_, ?_⟩
  · rw [runGenerate_primary_fail gen cn ba dd hname hgen hst hcol hfail]
    exact repairPhase_has_call gen t1 _
  · exact ⟨lc repairPart1, lc repairPart2 ++ schemaL ++ lc repairPart3 ++ jsonInstrL,
      by simp [repairPrompt, List.append_assoc]⟩
  · exact ⟨lc repairPart1 ++ t1 ++ lc repairPart2, lc repairPart3 ++ jsonInstrL,
      by simp [repairPrompt, List.append_assoc]⟩
  · exact ⟨lc promptPart1 ++ pyStrip cn ++ lc "(" ++ pyStrip ba ++ lc promptPart2 ++
        dd ++ lc promptPart3, lc promptPart4,
      by simp [primaryPrompt, List.append_assoc]⟩
  · exact ⟨lc repairPart1 ++ t1 ++ lc repairPart2 ++ schemaL ++ lc repairPart3, [],
      by simp [repairPrompt, List.append_assoc]⟩

/-- C8 witness: `C8_theorem` applied to a generator whose primary response is
2xx with empty aggregated text. -/
theorem C8_witness :
    Ev.genCall (repairPrompt []) ∈
      (runGenerate (fun _ => CallRes.resp 200 [] (some (Json.obj [])))
        (lc "acme") [] []).2 ∧
    (∃ a b, repairPrompt [] = a ++ [] ++ b) ∧
    (∃ a b, repairPrompt [] = a ++ schemaL ++ b) ∧
    (∃ a b, primaryPrompt (pyStrip (lc "acme")) (pyStrip []) [] =
      a ++ schemaL ++ b) ∧
    (∃ a b, repairPrompt [] = a ++ jsonInstrL ++ b) :=
  C8_theorem (fun _ => CallRes.resp 200 [] (some (Json.obj []))) (lc "acme") [] []
    200 [] [] (Json.obj []) (by decide) rfl (by omega) rfl rfl

end Portfolio.Claims
